import Mathlib

/-!
# Rate-limiting core of the podcast gateway (`src/api/main.go`)

Shallow embedding of `getClientIP`, `getRateLimiter`, `cleanupLimitersLoop`
and `rateLimitMiddleware`, together with the library functions they call
(`strings.Split`, `strings.TrimSpace`, `net.SplitHostPort`, `http.Header.Get`,
`http.Error` and the token bucket of `golang.org/x/time/rate`).

Conventions of the embedding:

* Go strings are sequences of Unicode code points (Lean `String`); every
  delimiter the code looks for is ASCII.
* `time.Time` is a number of nanoseconds on the process's monotonic clock
  (a `Nat`); every call of `time.Now()` in the source is an explicit
  clock-reading argument of the embedded function.
* Pointers to `rate.Limiter` are addresses into a heap of limiters, so that
  "the same limiter" means "the same address".
* The global map `ipLimiters` is an association list with unique keys.
* The mutex makes each call of `getRateLimiter` and each scan of
  `cleanupLimitersLoop` atomic; concurrent executions are the sequences of
  these atomic steps (`Event`, `step`).
-/

namespace Gateway

/-! ## Strings -/

/-- Go `unicode.IsSpace`: the Unicode White_Space property. -/
def isSpace (c : Char) : Bool :=
  let n := c.toNat
  (0x09 ≤ n && n ≤ 0x0d) || n == 0x20 || n == 0x85 || n == 0xa0 || n == 0x1680 ||
  (0x2000 ≤ n && n ≤ 0x200a) || n == 0x2028 || n == 0x2029 || n == 0x202f ||
  n == 0x205f || n == 0x3000

/-- Go `strings.TrimSpace` on the code points of a string: all leading and
all trailing white space removed. -/
def trimSpaceChars (s : List Char) : List Char :=
  ((s.dropWhile isSpace).reverse.dropWhile isSpace).reverse

/-- Go `strings.TrimSpace`. -/
def TrimSpace (s : String) : String := ⟨trimSpaceChars s.data⟩

/-- Go `strings.Split(s, sep)` for a separator of one character: the pieces of
`s` between consecutive occurrences of `sep`; always at least one piece. -/
def splitChars (sep : Char) : List Char → List (List Char)
  | [] => [[]]
  | c :: cs =>
    if c = sep then [] :: splitChars sep cs
    else
      match splitChars sep cs with
      | p :: ps => (c :: p) :: ps
      | [] => [[c]]

/-- Go `strings.Split(s, ",")`-style split on a one-character separator. -/
def Split (s : String) (sep : Char) : List String :=
  (splitChars sep s.data).map String.mk

/-- Go `strings.IndexByte`: position of the first occurrence of `c`. -/
def indexByte (s : List Char) (c : Char) : Option Nat :=
  match s with
  | [] => none
  | x :: xs => if x = c then some 0 else (indexByte xs c).map (· + 1)

/-- Go `strings.LastIndexByte`: position of the last occurrence of `c`. -/
def lastIndexByte (s : List Char) (c : Char) : Option Nat :=
  match s with
  | [] => none
  | x :: xs =>
    match lastIndexByte xs c with
    | some i => some (i + 1)
    | none => if x = c then some 0 else none

/-- Go `net.SplitHostPort` on the code points of `hostport`: the host and the
port of `host:port`, `[host]:port`, or the reason of the `AddrError`. -/
def splitHostPortChars (hostport : List Char) : Except String (List Char × List Char) :=
  -- The port starts after the last colon.
  match lastIndexByte hostport ':' with
  | none => .error "missing port in address"
  | some i =>
    if hostport.head? = some '[' then
      -- Expect the first ']' just before the last ':'.
      match indexByte hostport ']' with
      | none => .error "missing ']' in address"
      | some theEnd =>
        if theEnd + 1 = hostport.length then .error "missing port in address"
        else if theEnd + 1 = i then
          let host := (hostport.take theEnd).drop 1
          if (indexByte (hostport.drop 1) '[').isSome then
            .error "unexpected '[' in address"
          else if (indexByte (hostport.drop (theEnd + 1)) ']').isSome then
            .error "unexpected ']' in address"
          else .ok (host, hostport.drop (i + 1))
        else if (hostport.drop (theEnd + 1)).head? = some ':' then
          .error "too many colons in address"
        else .error "missing port in address"
    else
      let host := hostport.take i
      if (indexByte host ':').isSome then .error "too many colons in address"
      else if (indexByte hostport '[').isSome then .error "unexpected '[' in address"
      else if (indexByte hostport ']').isSome then .error "unexpected ']' in address"
      else .ok (host, hostport.drop (i + 1))

/-- Go `net.SplitHostPort`. -/
def SplitHostPort (hostport : String) : Except String (String × String) :=
  match splitHostPortChars hostport.data with
  | .ok (host, port) => .ok (⟨host⟩, ⟨port⟩)
  | .error why => .error why

/-! ## Requests and client identity -/

/-- The part of `http.Request` the gateway reads: the header map (canonical
key to its values) and the transport peer address. -/
structure Request where
  Header : List (String × List String)
  RemoteAddr : String
  deriving DecidableEq, Repr

/-- Go `http.Header.Get`: the first value stored under `key`, or `""`. -/
def headerGet (h : List (String × List String)) (key : String) : String :=
  match h.lookup key with
  | some (v :: _) => v
  | _ => ""

/-- Embedding of `getClientIP` (main.go lines 30-41). -/
def getClientIP (request : Request) : String :=
  let forwardedFor := headerGet request.Header "X-Forwarded-For"
  if forwardedFor ≠ "" then
    let parts := Split forwardedFor ','
    TrimSpace (parts.headD "")
  else
    match SplitHostPort request.RemoteAddr with
    | .error _ => request.RemoteAddr
    | .ok (host, _) => host

/-! ## The token bucket of `golang.org/x/time/rate`

`main.go` imports the package; its sources are not part of the repository. The
definitions below follow the package's `NewLimiter`, `advance`, `reserveN`,
`AllowN` and `Allow`, with the `float64` token count replaced by an exact
count. `Allow_spec` shows that on the limiters `getRateLimiter` creates they
are the token bucket of the specification (section 4.4). -/

/-- Go `time.Second`. -/
def Second : Nat := 1000000000

/-- Go `time.Minute`. -/
def Minute : Nat := 60 * Second

/-- Number of token units in one token: token counts (a `float64` in the
package) are kept exactly, in units of `1e-9` token, so that the refill during
`d` nanoseconds at `limit` tokens per second is exactly `d * limit` units. -/
def tokenUnit : Nat := 1000000000

/-- Go `rate.Limiter`: refill rate in tokens per second, burst size, current
tokens (in `tokenUnit`s) and the time of the last update of `tokens`. (The
field `lastEvent` is only read by reservation cancelling and is left out.) -/
structure Limiter where
  limit : Nat
  burst : Nat
  tokens : Int
  last : Nat
  deriving DecidableEq, Repr

/-- Go `rate.NewLimiter(r, b)`: a limiter that starts with a full bucket. -/
def NewLimiter (r : Nat) (b : Nat) : Limiter :=
  { limit := r, burst := b, tokens := (b * tokenUnit : Nat), last := 0 }

/-- Go `Limit.tokensFromDuration`: tokens accumulated during `d` at `limit`. -/
def tokensFromDuration (limit : Nat) (d : Nat) : Int :=
  if limit = 0 then 0 else (d * limit : Nat)

/-- Go `math.MaxInt64`, the value of `rate.InfDuration`. -/
def InfDuration : Nat := 9223372036854775807

/-- Go `Limit.durationFromTokens`: the time needed to accumulate `tokens` at
`limit`, truncated to whole nanoseconds by the conversion to `time.Duration`. -/
def durationFromTokens (limit : Nat) (tokens : Int) : Nat :=
  if limit = 0 then InfDuration
  else
    let duration := (tokens / (limit : Int)).toNat
    if duration > InfDuration then InfDuration else duration

/-- Go `Limiter.advance`: the token count the limiter would have at time `t`. -/
def Limiter.advance (lim : Limiter) (t : Nat) : Nat × Int :=
  let last := if t < lim.last then t else lim.last
  -- Calculate the new number of tokens, due to time that passed.
  let elapsed := t - last
  let delta := tokensFromDuration lim.limit elapsed
  let tokens := lim.tokens + delta
  let burst : Int := (lim.burst * tokenUnit : Nat)
  (t, if tokens > burst then burst else tokens)

/-- Go `Limiter.reserveN` for a finite limit, reduced to what `AllowN` uses:
whether the reservation is granted, and the limiter afterwards. -/
def Limiter.reserveN (lim : Limiter) (t : Nat) (n : Nat) (maxFutureReserve : Nat) :
    Bool × Limiter :=
  if lim.limit = 0 then
    if lim.burst ≥ n then (true, { lim with burst := lim.burst - n }) else (false, lim)
  else
    let (t, tokens) := lim.advance t
    -- Calculate the remaining number of tokens resulting from the request.
    let tokens := tokens - ((n * tokenUnit : Nat) : Int)
    -- Calculate the wait duration
    let waitDuration := if tokens < 0 then durationFromTokens lim.limit (-tokens) else 0
    -- Decide result
    let ok := decide (n ≤ lim.burst) && decide (waitDuration ≤ maxFutureReserve)
    if ok then (true, { lim with last := t, tokens := tokens }) else (false, lim)

/-- Go `Limiter.AllowN(t, n)`. -/
def Limiter.AllowN (lim : Limiter) (t : Nat) (n : Nat) : Bool × Limiter :=
  lim.reserveN t n 0

/-- Go `Limiter.Allow()`, with the reading `now` of `time.Now()`. -/
def Limiter.Allow (lim : Limiter) (now : Nat) : Bool × Limiter :=
  lim.AllowN now 1

/-! ## The registry -/

/-- Go `ipEntry` (main.go lines 20-23); `limiter` is the address of the
entry's `rate.Limiter`. -/
structure ipEntry where
  limiter : Nat
  lastSeen : Nat
  deriving DecidableEq, Repr

/-- The mutable state of the rate-limiting core: the allocated limiters
(address = position) and the global map `ipLimiters` (main.go lines 25-28). -/
structure State where
  heap : List Limiter
  ipLimiters : AList (fun _ : String => ipEntry)

/-- The state at process start: nothing allocated, `ipLimiters` empty. -/
def State.init : State := { heap := [], ipLimiters := ∅ }

/-- Embedding of `getRateLimiter` (main.go lines 43-60), run under the mutex
with clock reading `now`: the returned limiter pointer and the new state. -/
def getRateLimiter (clientIP : String) (now : Nat) (s : State) : Nat × State :=
  match s.ipLimiters.lookup clientIP with
  | some entry =>
    (entry.limiter,
      { s with ipLimiters := s.ipLimiters.insert clientIP { entry with lastSeen := now } })
  | none =>
    let limiter := s.heap.length
    (limiter,
      { heap := s.heap ++ [NewLimiter 5 10]
        ipLimiters := s.ipLimiters.insert clientIP { limiter := limiter, lastSeen := now } })

/-- One iteration of the range loop of `cleanupLimitersLoop` (main.go lines
66-70): key `visit.1` is examined while `time.Since` reads the clock at
`visit.2`. -/
def cleanupVisit (s : State) (visit : String × Nat) : State :=
  match s.ipLimiters.lookup visit.1 with
  | some entry =>
    if visit.2 - entry.lastSeen > 10 * Minute then
      { s with ipLimiters := s.ipLimiters.erase visit.1 }
    else s
  | none => s

/-- One locked scan of `cleanupLimitersLoop` (main.go lines 65-71): the keys
are visited in the order of `visits`, each with its own clock reading. -/
def cleanupPass (visits : List (String × Nat)) (s : State) : State :=
  visits.foldl cleanupVisit s

/-- Embedding of `cleanupLimitersLoop` (main.go lines 62-73) for as many
iterations of its endless loop as `passes` lists: after each sleep, one locked
scan. -/
def cleanupLimitersLoop (passes : List (List (String × Nat))) (s : State) : State :=
  passes.foldl (fun s visits => cleanupPass visits s) s

/-- The visits `visits` are a scan of the whole map of `s` that starts at time
`t`: every key of the map is visited exactly once, in any order, at a clock
reading not before `t`. -/
def IsScan (t : Nat) (visits : List (String × Nat)) (s : State) : Prop :=
  (visits.map Prod.fst).Perm s.ipLimiters.keys ∧ ∀ v ∈ visits, t ≤ v.2

/-- Go `limiter.Allow()` through the pointer `limiter`, with clock reading
`now`. (A pointer handed out by `getRateLimiter` is always allocated.) -/
def limiterAllow (limiter : Nat) (now : Nat) (s : State) : Bool × State :=
  match s.heap[limiter]? with
  | some lim =>
    let (ok, lim') := lim.Allow now
    (ok, { s with heap := s.heap.set limiter lim' })
  | none => (false, s)

/-! ## The middleware -/

/-- The part of `http.ResponseWriter` the gateway writes: header map, status
code (`none` until `WriteHeader`) and body. -/
structure ResponseWriter where
  header : List (String × String)
  status : Option Nat
  body : String
  deriving DecidableEq, Repr

/-- Go `Header.Set`. -/
def headerSet (h : List (String × String)) (key value : String) : List (String × String) :=
  (key, value) :: h.filter (fun kv => kv.1 ≠ key)

/-- Go `http.Error(w, error, code)`. -/
def httpError (w : ResponseWriter) (error : String) (code : Nat) : ResponseWriter :=
  let h := w.header.filter (fun kv => kv.1 ≠ "Content-Length")
  let h := headerSet h "Content-Type" "text/plain; charset=utf-8"
  let h := headerSet h "X-Content-Type-Options" "nosniff"
  { header := h
    status := match w.status with
      | none => some code
      | some written => some written
    body := w.body ++ error ++ "\n" }

/-- Go `http.StatusTooManyRequests`. -/
def StatusTooManyRequests : Nat := 429

/-- An `http.Handler`: its `ServeHTTP` may change the response and its own
world `σ` (whatever else the handler has effects on). -/
abbrev Handler (σ : Type) := Request → σ → ResponseWriter → σ × ResponseWriter

/-- Embedding of the handler returned by `rateLimitMiddleware(next)` (main.go
lines 75-88); `tAcquire` is the clock reading inside `getRateLimiter` and
`tAllow` the one inside `limiter.Allow()`. -/
def rateLimitMiddleware {σ : Type} (next : Handler σ) (request : Request)
    (tAcquire tAllow : Nat) (s : State) (world : σ) (response : ResponseWriter) :
    State × σ × ResponseWriter :=
  let clientIP := getClientIP request
  let (limiter, s) := getRateLimiter clientIP tAcquire s
  let (allowed, s) := limiterAllow limiter tAllow s
  if !allowed then
    (s, world, httpError response "Too Many Requests" StatusTooManyRequests)
  else
    let (world, response) := next request world response
    (s, world, response)

/-- The admission decision of `rateLimitMiddleware` for one request (main.go
lines 78-81) and the state it leaves. -/
def admission (request : Request) (tAcquire tAllow : Nat) (s : State) : Bool × State :=
  let clientIP := getClientIP request
  let (limiter, s) := getRateLimiter clientIP tAcquire s
  limiterAllow limiter tAllow s

/-! ## Runs -/

/-- What happens to the registry: a call of `getRateLimiter`, a request
passing through `rateLimitMiddleware`, or one scan of `cleanupLimitersLoop`. -/
inductive Event where
  | acquire (clientIP : String) (now : Nat)
  | request (request : Request) (tAcquire tAllow : Nat)
  | sweep (visits : List (String × Nat))
  deriving DecidableEq, Repr

/-- What an event lets its caller observe. -/
inductive Output where
  | handle (clientIP : String) (limiter : Nat)
  | decision (clientIP : String) (allowed : Bool)
  | swept
  deriving DecidableEq, Repr

/-- One event, run atomically. -/
def step (s : State) : Event → State × Output
  | .acquire clientIP now =>
    let (limiter, s) := getRateLimiter clientIP now s
    (s, .handle clientIP limiter)
  | .request request tAcquire tAllow =>
    let (allowed, s) := admission request tAcquire tAllow s
    (s, .decision (getClientIP request) allowed)
  | .sweep visits => (cleanupPass visits s, .swept)

/-- The state after a sequence of events. -/
def exec (s : State) : List Event → State
  | [] => s
  | e :: es => exec (step s e).1 es

/-- The outputs of a sequence of events, in order. -/
def outputs (s : State) : List Event → List Output
  | [] => []
  | e :: es => (step s e).2 :: outputs (step s e).1 es

/-- The admission decisions taken for identifier `clientIP`, in order. -/
def decisionsFor (clientIP : String) (os : List Output) : List Bool :=
  os.filterMap fun o =>
    match o with
    | .decision c allowed => if c = clientIP then some allowed else none
    | _ => none

/-- All admission decisions, in order. -/
def decisions (os : List Output) : List Bool :=
  os.filterMap fun o =>
    match o with
    | .decision _ allowed => some allowed
    | _ => none

/-! ## The per-client view of the state -/

/-- The data-model invariant of the registry: every entry points to an
allocated limiter, and no two entries share a limiter. -/
def State.WF (s : State) : Prop :=
  (∀ (id : String) (e : ipEntry), s.ipLimiters.lookup id = some e → e.limiter < s.heap.length) ∧
  (∀ (id id' : String) (e e' : ipEntry), s.ipLimiters.lookup id = some e →
    s.ipLimiters.lookup id' = some e' → e.limiter = e'.limiter → id = id')

/-- What the state holds for one client: the `lastSeen` of its entry and the
contents of its limiter; `none` when the map has no entry for it. -/
def view (s : State) (id : String) : Option (Nat × Limiter) :=
  (s.ipLimiters.lookup id).bind fun e => (s.heap[e.limiter]?).map fun lim => (e.lastSeen, lim)

/-- The limiter `getRateLimiter` hands out to a client with view `v`. -/
def viewLimiter (v : Option (Nat × Limiter)) : Limiter :=
  match v with
  | some (_, lim) => lim
  | none => NewLimiter 5 10

/-- The staleness test of `cleanupLimitersLoop` on a view. -/
def viewVisit (now : Nat) (v : Option (Nat × Limiter)) : Option (Nat × Limiter) :=
  match v with
  | some (lastSeen, lim) => if now - lastSeen > 10 * Minute then none else some (lastSeen, lim)
  | none => none

/-- The effect of one event on the view of client `id`. -/
def viewStep (id : String) (v : Option (Nat × Limiter)) : Event → Option (Nat × Limiter)
  | .acquire clientIP now => if clientIP = id then some (now, viewLimiter v) else v
  | .request request tAcquire tAllow =>
    if getClientIP request = id then some (tAcquire, ((viewLimiter v).Allow tAllow).2) else v
  | .sweep visits =>
    visits.foldl (fun v visit => if visit.1 = id then viewVisit visit.2 v else v) v

/-- The token count `advance` computes for a limiter of rate 5 and burst 10 at
time `t`, in token units. -/
def refilled (lim : Limiter) (t : Nat) : Int :=
  min (10 * (tokenUnit : Int)) (lim.tokens + 5 * ((t - min t lim.last : Nat) : Int))

/-- The admission decisions of successive `Allow` calls on one limiter at the
clock readings `ts`. -/
def allowSeq (lim : Limiter) : List Nat → List Bool
  | [] => []
  | t :: ts => (lim.Allow t).1 :: allowSeq (lim.Allow t).2 ts

/-- The limiter after successive `Allow` calls at the clock readings `ts`. -/
def allowFinal (lim : Limiter) : List Nat → Limiter
  | [] => lim
  | t :: ts => allowFinal (lim.Allow t).2 ts

/-- Whether the event is a request through the middleware from client `A`. -/
def isRequestFrom (A : String) : Event → Bool
  | .request request _ _ => decide (getClientIP request = A)
  | _ => false

/-- A registry holding one entry, last seen at time 0. -/
def oneClient : State :=
  { heap := [NewLimiter 5 10]
    ipLimiters := (∅ : AList fun _ : String => ipEntry).insert "203.0.113.7" ⟨0, 0⟩ }

/-- The handler `next` instrumented with a side-effect counter of its
invocations. -/
def counting {σ : Type} (next : Handler σ) : Handler (σ × Nat) :=
  fun request world response =>
    let (w, response) := next request world.1 response
    ((w, world.2 + 1), response)

/-- The handler registered for `/api/hello` (main.go lines 139-141), writing
to the response only. -/
def helloHandler : Handler Unit :=
  fun _ world response =>
    (world, { response with
      status := match response.status with
        | none => some 200
        | some written => some written
      body := response.body ++ "Hello World!" })

/-- A registry whose only client has used up its bucket at time 0. -/
def exhaustedClient : State :=
  { heap := [{ limit := 5, burst := 10, tokens := 0, last := 0 }]
    ipLimiters := (∅ : AList fun _ : String => ipEntry).insert "203.0.113.7" ⟨0, 0⟩ }

/-- Whether the event calls `getRateLimiter` for client `id`. -/
def acquiresFor (id : String) : Event → Bool
  | .acquire clientIP _ => decide (clientIP = id)
  | .request request _ _ => decide (getClientIP request = id)
  | .sweep _ => false

/-- The clock readings of the `Allow` calls in a sequence of events. -/
def allowTimes : List Event → List Nat
  | [] => []
  | .request _ _ tAllow :: es => tAllow :: allowTimes es
  | _ :: es => allowTimes es

/-- The clock readings taken by an event, in the order they are taken. -/
def Event.times : Event → List Nat
  | .acquire _ now => [now]
  | .request _ tAcquire tAllow => [tAcquire, tAllow]
  | .sweep visits => visits.map Prod.snd

/-- The clock never runs backwards along the run: the readings of all events,
in the order they are taken, are non-decreasing. -/
def Chronological (evs : List Event) : Prop :=
  ((evs.map Event.times).flatten).Pairwise (fun a b => a ≤ b)

instance (evs : List Event) : Decidable (Chronological evs) := by
  unfold Chronological
  infer_instance

/-- The clock reading at which the event calls `getRateLimiter` for `id`. -/
def acquireTime (id : String) : Event → Option Nat
  | .acquire clientIP now => if clientIP = id then some now else none
  | .request request tAcquire _ => if getClientIP request = id then some tAcquire else none
  | .sweep _ => none

/-- The pause between two scans of `cleanupLimitersLoop` (main.go line 64). -/
def sweepInterval : Nat := 1 * Minute

/-- Whether the event is a scan of `cleanupLimitersLoop`. -/
def isSweep : Event → Bool
  | .sweep _ => true
  | _ => false

/-- The time a limiter of rate 5 tokens per second needs to refill one token
(200 milliseconds). -/
def tokenTime : Nat := Second / 5

/-- The latest clock reading up to and including event `e`, when the latest
reading before it was `T`. -/
def finish (T : Nat) : Event → Nat
  | .acquire _ now => max T now
  | .request _ tAcquire tAllow => max T (max tAcquire tAllow)
  | .sweep visits => visits.foldl (fun T visit => max T visit.2) T

/-- Invariant of a limiter created by `getRateLimiter`, at time `T`. -/
def Limiter.Base (lim : Limiter) (T : Nat) : Prop :=
  lim.limit = 5 ∧ lim.burst = 10 ∧ -4 ≤ lim.tokens ∧ lim.last ≤ T

/-- The bucket has refilled to the full burst by time `T`. -/
def Limiter.FullAt (lim : Limiter) (T : Nat) : Prop :=
  10 * (tokenUnit : Int) ≤ lim.tokens + 5 * ((T - lim.last : Nat) : Int)

/-- Simulation between the view `v` of a client in the run with sweeps and its
view `v'` in the run without, when the clock has reached `T`: the kept limiter
is full again as soon as its entry can be evicted, and either the two runs
hold the same entry, or the entry was evicted (and possibly recreated) while
the limiter kept by the run without sweeps had refilled completely. -/
def Rel (v v' : Option (Nat × Limiter)) (T : Nat) : Prop :=
  match v, v' with
  | none, none => True
  | some _, none => False
  | none, some (_, lim') => lim'.Base T ∧ lim'.FullAt T
  | some (ls, lim), some (ls', lim') =>
    ls = ls' ∧ ls' ≤ T ∧ lim'.Base T ∧ lim'.FullAt (ls' + 10 * Minute + 1) ∧
      (lim = lim' ∨ (lim.Base T ∧ lim.FullAt T ∧ lim'.FullAt T))

/-- A request from peer `203.0.113.7` without a forwarded-for header. -/
def peerRequest : Request := ⟨[], "203.0.113.7:54321"⟩

/-- A request forwarded for client `198.51.100.9`. -/
def forwardedRequest : Request :=
  ⟨[("X-Forwarded-For", ["198.51.100.9, 10.0.0.1"])], "203.0.113.7:54321"⟩

/-- A run in which one request stalls for 599.9 seconds between its call of
`getRateLimiter` and its call of `Allow`, is evicted one nanosecond after the
10 minutes, and is followed by ten requests at that same instant. -/
def stalledRun : List Event :=
  [.request peerRequest 0 (5999 * (Second / 10)), .sweep [("203.0.113.7", 10 * Minute + 1)]]
    ++ List.replicate 10 (.request peerRequest (10 * Minute + 1) (10 * Minute + 1))

/-- A run in which a client uses up its bucket, is evicted after 601 idle
seconds and then comes back. -/
def evictedRun : List Event :=
  List.replicate 11 (.request peerRequest 0 0)
    ++ [.sweep [("203.0.113.7", 601 * Second)],
        .request peerRequest (601 * Second) (601 * Second)]

/-- A run in which a client calls once per sweep interval. -/
def activeRun : List Event :=
  [.acquire "203.0.113.7" 0, .sweep [("203.0.113.7", 60 * Second)],
   .acquire "203.0.113.7" (60 * Second)]

/-- A run in which client `203.0.113.7` uses up its bucket before a request
forwarded for `198.51.100.9` arrives. -/
def twoClients : List Event :=
  List.replicate 11 (.request peerRequest 0 0) ++ [.request forwardedRequest 0 0]

/-! # Theorems -/

theorem splitChars_headD (sep : Char) (s : List Char) :
    (splitChars sep s).headD [] = s.takeWhile (fun c => c ≠ sep) := by
  induction s with
  | nil => rfl
  | cons c cs ih =>
    by_cases h : c = sep
    · simp [splitChars, h]
    · cases hs : splitChars sep cs with
      | nil => simp [splitChars, h, hs] at ih ⊢; exact ih
      | cons p ps => simp [splitChars, h, hs] at ih ⊢; exact ih

theorem takeWhile_ne_spec (sep : Char) (s : List Char) :
    sep ∉ s.takeWhile (fun c => c ≠ sep) ∧
    (s.dropWhile (fun c => c ≠ sep) = [] ∨ (s.dropWhile (fun c => c ≠ sep)).head? = some sep) := by
  induction s with
  | nil => simp
  | cons c cs ih =>
    by_cases h : c = sep
    · subst h; simp
    · have h' : ¬ sep = c := fun e => h e.symm
      simp [List.takeWhile_cons, List.dropWhile_cons, h, h']
      exact ⟨by simpa using ih.1, by simpa using ih.2⟩

theorem trimSpaceChars_spec (s : List Char) :
    ∃ pre post : List Char, s = pre ++ trimSpaceChars s ++ post ∧
      (∀ c ∈ pre, isSpace c = true) ∧ (∀ c ∈ post, isSpace c = true) ∧
      (∀ c, (trimSpaceChars s).head? = some c → isSpace c = false) ∧
      (∀ c, (trimSpaceChars s).getLast? = some c → isSpace c = false) := by
  refine ⟨s.takeWhile isSpace, ((s.dropWhile isSpace).reverse.takeWhile isSpace).reverse,
    ?_, ?_, ?_, ?_, ?_⟩
  · have h1 : s = s.takeWhile isSpace ++ s.dropWhile isSpace := (List.takeWhile_append_dropWhile _ _).symm
    have h2 : s.dropWhile isSpace = trimSpaceChars s ++
        ((s.dropWhile isSpace).reverse.takeWhile isSpace).reverse := by
      unfold trimSpaceChars
      rw [← List.reverse_append, List.takeWhile_append_dropWhile, List.reverse_reverse]
    rw [List.append_assoc, ← h2]; exact h1
  · intro c hc; exact List.mem_takeWhile_imp hc
  · intro c hc; rw [List.mem_reverse] at hc; exact List.mem_takeWhile_imp hc
  · intro c hc
    have h2 : s.dropWhile isSpace = trimSpaceChars s ++
        ((s.dropWhile isSpace).reverse.takeWhile isSpace).reverse := by
      unfold trimSpaceChars
      rw [← List.reverse_append, List.takeWhile_append_dropWhile, List.reverse_reverse]
    have h3 : (s.dropWhile isSpace).head? = some c := by
      rw [h2, List.head?_append, hc]; rfl
    have := List.head?_dropWhile_not isSpace s
    rw [h3] at this
    simpa using this
  · intro c hc
    unfold trimSpaceChars at hc
    rw [List.getLast?_reverse] at hc
    have := List.head?_dropWhile_not isSpace (s.dropWhile isSpace).reverse
    rw [hc] at this
    simpa using this

theorem indexByte_spec (s : List Char) (c : Char) (i : Nat) (h : indexByte s c = some i) :
    s = s.take i ++ c :: s.drop (i + 1) ∧ c ∉ s.take i := by
  induction s generalizing i with
  | nil => simp [indexByte] at h
  | cons x xs ih =>
    by_cases hx : x = c
    · simp [indexByte, hx] at h; subst h; simp [hx]
    · simp only [indexByte, hx, if_false, Option.map_eq_some'] at h
      obtain ⟨j, hj, rfl⟩ := h
      obtain ⟨h1, h2⟩ := ih j hj
      refine ⟨?_, ?_⟩
      · simp only [List.take_succ_cons, List.drop_succ_cons, List.cons_append]
        rw [← h1]
      · simp only [List.take_succ_cons, List.mem_cons, not_or]
        exact ⟨fun e => hx e.symm, h2⟩

theorem indexByte_none (s : List Char) (c : Char) (h : indexByte s c = none) : c ∉ s := by
  induction s with
  | nil => simp
  | cons x xs ih =>
    by_cases hx : x = c
    · simp [indexByte, hx] at h
    · simp only [indexByte, hx, if_false, Option.map_eq_none'] at h
      simp only [List.mem_cons, not_or]
      exact ⟨fun e => hx e.symm, ih h⟩

theorem lastIndexByte_none (s : List Char) (c : Char) (h : lastIndexByte s c = none) :
    c ∉ s := by
  induction s with
  | nil => simp
  | cons x xs ih =>
    cases hl : lastIndexByte xs c with
    | some i => simp [lastIndexByte, hl] at h
    | none =>
      by_cases hx : x = c
      · simp [lastIndexByte, hl, hx] at h
      · simp only [List.mem_cons, not_or]
        exact ⟨fun e => hx e.symm, ih hl⟩

theorem lastIndexByte_spec (s : List Char) (c : Char) (i : Nat)
    (h : lastIndexByte s c = some i) :
    s = s.take i ++ c :: s.drop (i + 1) ∧ c ∉ s.drop (i + 1) := by
  induction s generalizing i with
  | nil => simp [lastIndexByte] at h
  | cons x xs ih =>
    cases hl : lastIndexByte xs c with
    | some j =>
      simp only [lastIndexByte, hl, Option.some.injEq] at h
      subst h
      obtain ⟨h1, h2⟩ := ih j hl
      refine ⟨?_, by simpa using h2⟩
      simp only [List.take_succ_cons, List.drop_succ_cons, List.cons_append]
      rw [← h1]
    | none =>
      by_cases hx : x = c
      · simp only [lastIndexByte, hl, hx, if_true, Option.some.injEq] at h
        subst h
        simp [hx]
        exact lastIndexByte_none xs c hl
      · simp [lastIndexByte, hl, hx] at h

theorem drop_of_split (s a b : List Char) (c : Char) (i : Nat)
    (h : s = a ++ c :: b) (hi : a.length = i) : s.drop i = c :: b := by
  subst h; exact List.drop_left' hi

theorem lastIndexByte_lt (s : List Char) (c : Char) (i : Nat)
    (h : lastIndexByte s c = some i) : i < s.length := by
  induction s generalizing i with
  | nil => simp [lastIndexByte] at h
  | cons x xs ih =>
    cases hl : lastIndexByte xs c with
    | some j =>
      simp only [lastIndexByte, hl, Option.some.injEq] at h
      subst h
      simpa using ih j hl
    | none =>
      by_cases hx : x = c
      · simp only [lastIndexByte, hl, hx, if_true, Option.some.injEq] at h
        subst h; simp
      · simp [lastIndexByte, hl, hx] at h

theorem splitHostPortChars_ok (hostport host port : List Char)
    (h : splitHostPortChars hostport = .ok (host, port)) :
    (hostport = host ++ ':' :: port ∨ hostport = '[' :: host ++ ']' :: ':' :: port) ∧
      ':' ∉ port := by
  unfold splitHostPortChars at h
  cases hl : lastIndexByte hostport ':' with
  | none => simp [hl] at h
  | some i =>
    obtain ⟨hs1, hs2⟩ := lastIndexByte_spec hostport ':' i hl
    have hlt := lastIndexByte_lt hostport ':' i hl
    simp only [hl] at h
    by_cases hb : hostport.head? = some '['
    · rw [if_pos hb] at h
      cases he : indexByte hostport ']' with
      | none => simp [he] at h
      | some e =>
        simp only [he] at h
        by_cases h4 : e + 1 = hostport.length
        · rw [if_pos h4] at h; cases h
        · rw [if_neg h4] at h
          by_cases h5 : e + 1 = i
          · rw [if_pos h5] at h
            split_ifs at h
            simp only [Except.ok.injEq, Prod.mk.injEq] at h
            obtain ⟨rfl, rfl⟩ := h
            refine ⟨Or.inr ?_, hs2⟩
            obtain ⟨he1, -⟩ := indexByte_spec hostport ']' e he
            have hd : hostport.drop i = ':' :: hostport.drop (i + 1) :=
              drop_of_split hostport _ _ ':' i hs1 (by simp; omega)
            subst h5
            rw [hd] at he1
            cases hostport with
            | nil => simp at hb
            | cons x xs =>
              simp only [List.head?_cons, Option.some.injEq] at hb
              subst hb
              cases e with
              | zero => simp at he1
              | succ e' =>
                simp only [List.take_succ_cons, List.drop_succ_cons, List.drop_zero,
                  List.cons_append] at he1 ⊢
                exact he1
          · rw [if_neg h5] at h; split_ifs at h
    · rw [if_neg hb] at h
      split_ifs at h
      simp only [Except.ok.injEq, Prod.mk.injEq] at h
      obtain ⟨rfl, rfl⟩ := h
      exact ⟨Or.inl hs1, hs2⟩

theorem headD_map_mk (l : List (List Char)) :
    (l.map String.mk).headD "" = String.mk (l.headD []) := by
  cases l <;> rfl

theorem clientIP_of_header (request : Request)
    (h : headerGet request.Header "X-Forwarded-For" ≠ "") :
    getClientIP request = TrimSpace
      ⟨(headerGet request.Header "X-Forwarded-For").data.takeWhile (fun c => c ≠ ',')⟩ := by
  unfold getClientIP
  simp only [h, ne_eq, not_false_eq_true, if_true, Split, headD_map_mk, splitChars_headD]

/-- Claim C5 (forwarded-for identity): when the `X-Forwarded-For` header is
not empty, the header value is `pre ++ result ++ post ++ rest` where `pre` and
`post` are white space, `pre ++ result ++ post` holds no comma, `rest` is empty
or starts with a comma, and the result neither starts nor ends with white
space; the result does not depend on `RemoteAddr`; and the header value
`"198.51.100.9, 10.0.0.1"` gives `"198.51.100.9"`. -/
theorem getClientIP_forwardedFor (request : Request)
    (h : headerGet request.Header "X-Forwarded-For" ≠ "") :
    (∃ pre post rest : List Char,
      (headerGet request.Header "X-Forwarded-For").data
        = pre ++ (getClientIP request).data ++ post ++ rest ∧
      (∀ c ∈ pre, isSpace c = true) ∧ (∀ c ∈ post, isSpace c = true) ∧
      ',' ∉ pre ++ (getClientIP request).data ++ post ∧
      (rest = [] ∨ rest.head? = some ',') ∧
      (∀ c, (getClientIP request).data.head? = some c → isSpace c = false) ∧
      (∀ c, (getClientIP request).data.getLast? = some c → isSpace c = false)) ∧
    (∀ addr : String, getClientIP { request with RemoteAddr := addr } = getClientIP request) ∧
    (∀ addr : String,
      getClientIP ⟨[("X-Forwarded-For", ["198.51.100.9, 10.0.0.1"])], addr⟩ = "198.51.100.9") := by
  refine ⟨?_, ?_, ?_⟩
  · rw [clientIP_of_header request h]
    generalize (headerGet request.Header "X-Forwarded-For").data = ff
    obtain ⟨pre, post, h1, h2, h3, h4, h5⟩ :=
      trimSpaceChars_spec (ff.takeWhile (fun c => c ≠ ','))
    obtain ⟨h6, h7⟩ := takeWhile_ne_spec ',' ff
    refine ⟨pre, post, ff.dropWhile (fun c => c ≠ ','), ?_, h2, h3, ?_, h7, h4, h5⟩
    · show ff = pre ++ trimSpaceChars _ ++ post ++ _
      rw [← h1, List.takeWhile_append_dropWhile]
    · show ',' ∉ pre ++ trimSpaceChars _ ++ post
      rw [← h1]; exact h6
  · intro addr
    rw [clientIP_of_header request h]
    exact clientIP_of_header ⟨request.Header, addr⟩ h
  · intro addr
    have hne : headerGet [("X-Forwarded-For", ["198.51.100.9, 10.0.0.1"])] "X-Forwarded-For" ≠ "" := by
      decide
    rw [clientIP_of_header ⟨_, addr⟩ hne]
    exact (by decide : TrimSpace ⟨List.takeWhile (fun c => decide (c ≠ ','))
      (headerGet [("X-Forwarded-For", ["198.51.100.9, 10.0.0.1"])] "X-Forwarded-For").data⟩
        = "198.51.100.9")

theorem getClientIP_forwardedFor_witness :
    headerGet [("X-Forwarded-For", ["198.51.100.9, 10.0.0.1"])] "X-Forwarded-For" ≠ "" ∧
    getClientIP ⟨[("X-Forwarded-For", ["198.51.100.9, 10.0.0.1"])], "203.0.113.7:54321"⟩
      = "198.51.100.9" :=
  ⟨by decide,
    (getClientIP_forwardedFor ⟨[("X-Forwarded-For", ["198.51.100.9, 10.0.0.1"])],
      "203.0.113.7:54321"⟩ (by decide)).2.2 "203.0.113.7:54321"⟩

theorem init_wellFormed : State.init.WF := by
  constructor
  · intro id e h; simp [State.init] at h
  · intro id id' e e' h; simp [State.init] at h

theorem view_of_lookup_none {s : State} {id : String}
    (h : s.ipLimiters.lookup id = none) : view s id = none := by
  simp [view, h]

theorem view_of_lookup_some {s : State} (hs : s.WF) {id : String} {e : ipEntry}
    (h : s.ipLimiters.lookup id = some e) :
    ∃ lim, s.heap[e.limiter]? = some lim ∧ view s id = some (e.lastSeen, lim) := by
  have hlt := hs.1 id e h
  refine ⟨s.heap[e.limiter], List.getElem?_eq_getElem hlt, ?_⟩
  simp [view, h, List.getElem?_eq_getElem hlt]

theorem getRateLimiter_view {s : State} (hs : s.WF) (c : String) (now : Nat) :
    (getRateLimiter c now s).2.WF ∧
    (getRateLimiter c now s).2.ipLimiters.lookup c
      = some ⟨(getRateLimiter c now s).1, now⟩ ∧
    (getRateLimiter c now s).2.heap[(getRateLimiter c now s).1]? = some (viewLimiter (view s c)) ∧
    (∀ id, id ≠ c → (getRateLimiter c now s).2.ipLimiters.lookup id = s.ipLimiters.lookup id) ∧
    (∀ a, a < s.heap.length → (getRateLimiter c now s).2.heap[a]? = s.heap[a]?) := by
  unfold getRateLimiter
  cases h : s.ipLimiters.lookup c with
  | some entry =>
    obtain ⟨lim, h1, h2⟩ := view_of_lookup_some hs h
    simp only [h2, viewLimiter]
    refine ⟨⟨?_, ?_⟩, ?_, h1, ?_, ?_⟩
    · intro id e he
      by_cases hid : id = c
      · subst hid
        simp only [AList.lookup_insert, Option.some.injEq] at he
        subst he
        exact hs.1 id entry h
      · rw [AList.lookup_insert_ne hid] at he
        exact hs.1 _ _ he
    · intro id id' e e' he he' heq
      by_cases hid : id = c <;> by_cases hid' : id' = c
      · rw [hid, hid']
      · subst hid
        simp only [AList.lookup_insert, Option.some.injEq] at he
        rw [AList.lookup_insert_ne hid'] at he'
        subst he
        exact hs.2 id id' entry e' h he' heq
      · subst hid'
        simp only [AList.lookup_insert, Option.some.injEq] at he'
        rw [AList.lookup_insert_ne hid] at he
        subst he'
        exact hs.2 id id' e entry he h heq
      · rw [AList.lookup_insert_ne hid] at he
        rw [AList.lookup_insert_ne hid'] at he'
        exact hs.2 _ _ _ _ he he' heq
    · simp [AList.lookup_insert]
    · intro id hid
      exact AList.lookup_insert_ne hid
    · intro a _; trivial
  | none =>
    simp only [view_of_lookup_none h, viewLimiter]
    refine ⟨⟨?_, ?_⟩, ?_, ?_, ?_, ?_⟩
    · intro id e he
      simp only [List.length_append, List.length_singleton]
      by_cases hid : id = c
      · subst hid
        simp only [AList.lookup_insert, Option.some.injEq] at he
        subst he
        exact Nat.lt_succ_self _
      · rw [AList.lookup_insert_ne hid] at he
        exact Nat.lt_succ_of_lt (hs.1 _ _ he)
    · intro id id' e e' he he' heq
      by_cases hid : id = c <;> by_cases hid' : id' = c
      · rw [hid, hid']
      · subst hid
        simp only [AList.lookup_insert, Option.some.injEq] at he
        rw [AList.lookup_insert_ne hid'] at he'
        subst he
        have := hs.1 _ _ he'
        simp only at heq
        omega
      · subst hid'
        simp only [AList.lookup_insert, Option.some.injEq] at he'
        rw [AList.lookup_insert_ne hid] at he
        subst he'
        have := hs.1 _ _ he
        simp only at heq
        omega
      · rw [AList.lookup_insert_ne hid] at he
        rw [AList.lookup_insert_ne hid'] at he'
        exact hs.2 _ _ _ _ he he' heq
    · simp [AList.lookup_insert]
    · simp
    · intro id hid
      exact AList.lookup_insert_ne hid
    · intro a ha
      exact List.getElem?_append_left ha

theorem acquire_view {s : State} (hs : s.WF) (c : String) (now : Nat) (id : String) :
    view (getRateLimiter c now s).2 id
      = if c = id then some (now, viewLimiter (view s c)) else view s id := by
  obtain ⟨-, h2, h3, h4, h5⟩ := getRateLimiter_view hs c now
  by_cases hid : c = id
  · subst hid
    simp [view, h2, h3]
  · rw [if_neg hid]
    have hne : id ≠ c := fun e => hid e.symm
    unfold view
    rw [h4 id hne]
    cases he : s.ipLimiters.lookup id with
    | none => rfl
    | some e =>
      simp only [Option.some_bind]
      rw [h5 _ (hs.1 _ _ he)]

theorem limiterAllow_view {s : State} (hs : s.WF) {c : String} {e : ipEntry} {lim : Limiter}
    (he : s.ipLimiters.lookup c = some e) (hl : s.heap[e.limiter]? = some lim) (t : Nat) :
    (limiterAllow e.limiter t s).2.WF ∧
    (limiterAllow e.limiter t s).1 = (lim.Allow t).1 ∧
    ∀ id, view (limiterAllow e.limiter t s).2 id
      = if c = id then some (e.lastSeen, (lim.Allow t).2) else view s id := by
  have hlt := hs.1 _ _ he
  have hdef : limiterAllow e.limiter t s
      = ((lim.Allow t).1, { s with heap := s.heap.set e.limiter (lim.Allow t).2 }) := by
    simp [limiterAllow, hl]
  rw [hdef]
  refine ⟨⟨?_, ?_⟩, rfl, ?_⟩
  · intro id e' he'
    simp only [List.length_set]
    exact hs.1 _ _ he'
  · exact hs.2
  · intro id
    by_cases hid : c = id
    · subst hid
      simp [view, he, List.getElem?_set_self hlt]
    · rw [if_neg hid]
      unfold view
      cases he' : s.ipLimiters.lookup id with
      | none => rfl
      | some e' =>
        have hne : e.limiter ≠ e'.limiter := fun h => hid (hs.2 _ _ _ _ he he' h)
        simp only [Option.some_bind]
        rw [List.getElem?_set_ne hne]

theorem admission_eq (r : Request) (t1 t2 : Nat) (s : State) :
    admission r t1 t2 s = limiterAllow (getRateLimiter (getClientIP r) t1 s).1 t2
      (getRateLimiter (getClientIP r) t1 s).2 := rfl

theorem admission_view {s : State} (hs : s.WF) (r : Request) (t1 t2 : Nat) :
    (admission r t1 t2 s).2.WF ∧
    (admission r t1 t2 s).1 = ((viewLimiter (view s (getClientIP r))).Allow t2).1 ∧
    ∀ id, view (admission r t1 t2 s).2 id
      = if getClientIP r = id
        then some (t1, ((viewLimiter (view s (getClientIP r))).Allow t2).2)
        else view s id := by
  obtain ⟨h1, h2, h3, -, -⟩ := getRateLimiter_view hs (getClientIP r) t1
  obtain ⟨k1, k2, k3⟩ := limiterAllow_view h1 h2 h3 t2
  rw [admission_eq]
  refine ⟨k1, k2, ?_⟩
  intro id
  refine (k3 id).trans ?_
  rw [acquire_view hs]
  by_cases hid : getClientIP r = id <;> simp [hid]

theorem cleanupVisit_view {s : State} (hs : s.WF) (visit : String × Nat) :
    (cleanupVisit s visit).WF ∧ (cleanupVisit s visit).heap = s.heap ∧
    ∀ id, view (cleanupVisit s visit) id
      = if visit.1 = id then viewVisit visit.2 (view s id) else view s id := by
  unfold cleanupVisit
  cases he : s.ipLimiters.lookup visit.1 with
  | none =>
    refine ⟨hs, rfl, ?_⟩
    intro id
    by_cases hid : visit.1 = id
    · subst hid
      simp [view_of_lookup_none he, viewVisit]
    · simp [hid]
  | some e =>
    obtain ⟨lim, h1, h2⟩ := view_of_lookup_some hs he
    by_cases hst : visit.2 - e.lastSeen > 10 * Minute
    · simp only [hst, if_true]
      refine ⟨⟨?_, ?_⟩, trivial, ?_⟩
      · intro id e' he'
        by_cases hid : id = visit.1
        · subst hid; simp [AList.lookup_erase] at he'
        · rw [AList.lookup_erase_ne hid] at he'
          exact hs.1 _ _ he'
      · intro id id' e1 e2 he1 he2 heq
        by_cases hid : id = visit.1
        · subst hid; simp [AList.lookup_erase] at he1
        · by_cases hid' : id' = visit.1
          · subst hid'; simp [AList.lookup_erase] at he2
          · rw [AList.lookup_erase_ne hid] at he1
            rw [AList.lookup_erase_ne hid'] at he2
            exact hs.2 _ _ _ _ he1 he2 heq
      · intro id
        by_cases hid : visit.1 = id
        · subst hid
          simp [view, AList.lookup_erase, he, h1, viewVisit, hst]
        · rw [if_neg hid]
          have hne : id ≠ visit.1 := fun h => hid h.symm
          simp only [view, AList.lookup_erase_ne hne]
    · simp only [hst, if_false]
      refine ⟨hs, trivial, ?_⟩
      intro id
      by_cases hid : visit.1 = id
      · subst hid
        simp [h2, viewVisit, hst]
      · simp [hid]

theorem cleanupPass_view (visits : List (String × Nat)) {s : State} (hs : s.WF) :
    (cleanupPass visits s).WF ∧ (cleanupPass visits s).heap = s.heap ∧
    ∀ id, view (cleanupPass visits s) id
      = visits.foldl (fun v visit => if visit.1 = id then viewVisit visit.2 v else v)
          (view s id) := by
  induction visits generalizing s with
  | nil => exact ⟨hs, rfl, fun _ => rfl⟩
  | cons v vs ih =>
    obtain ⟨h1, h2, h3⟩ := cleanupVisit_view hs v
    obtain ⟨k1, k2, k3⟩ := ih h1
    refine ⟨k1, k2.trans h2, ?_⟩
    intro id
    show view (cleanupPass vs (cleanupVisit s v)) id = _
    rw [k3 id, h3 id]
    rfl

theorem step_view {s : State} (hs : s.WF) (ev : Event) :
    (step s ev).1.WF ∧ ∀ id, view (step s ev).1 id = viewStep id (view s id) ev := by
  cases ev with
  | acquire c now =>
    refine ⟨(getRateLimiter_view hs c now).1, ?_⟩
    intro id
    show view (getRateLimiter c now s).2 id = _
    rw [acquire_view hs]
    by_cases hid : c = id
    · subst hid; simp [viewStep]
    · simp [viewStep, hid]
  | request r t1 t2 =>
    obtain ⟨h1, -, h3⟩ := admission_view hs r t1 t2
    refine ⟨h1, ?_⟩
    intro id
    show view (admission r t1 t2 s).2 id = _
    rw [h3 id]
    by_cases hid : getClientIP r = id
    · subst hid; simp [viewStep]
    · simp [viewStep, hid]
  | sweep visits =>
    obtain ⟨h1, -, h3⟩ := cleanupPass_view visits hs
    exact ⟨h1, h3⟩

theorem exec_WF {s : State} (hs : s.WF) (evs : List Event) : (exec s evs).WF := by
  induction evs generalizing s with
  | nil => exact hs
  | cons e es ih => exact ih (step_view hs e).1

theorem exec_view {s : State} (hs : s.WF) (evs : List Event) (id : String) :
    view (exec s evs) id = evs.foldl (viewStep id) (view s id) := by
  induction evs generalizing s with
  | nil => rfl
  | cons e es ih =>
    show view (exec (step s e).1 es) id = _
    rw [ih (step_view hs e).1, (step_view hs e).2 id]
    rfl

/-! ## Token bucket lemmas -/

theorem advance_eq (lim : Limiter) (h5 : lim.limit = 5) (h10 : lim.burst = 10) (t : Nat) :
    lim.advance t = (t, refilled lim t) := by
  unfold Limiter.advance refilled tokensFromDuration
  simp only [h5, h10, tokenUnit]
  refine Prod.ext rfl ?_
  have e1 : (if t < lim.last then t else lim.last) = min t lim.last := by
    rw [Nat.min_def]; split_ifs <;> first | rfl | omega
  simp only [e1]
  rw [min_def]
  push_cast
  split_ifs <;> omega

theorem wait_eq_zero_iff (x : Int) :
    (if x - ((1 * tokenUnit : Nat) : Int) < 0
      then durationFromTokens 5 (-(x - ((1 * tokenUnit : Nat) : Int))) else 0) ≤ 0
    ↔ (tokenUnit : Int) - 4 ≤ x := by
  unfold durationFromTokens InfDuration tokenUnit
  simp only
  split_ifs <;> first | contradiction | omega

theorem Allow_eq (lim : Limiter) (h5 : lim.limit = 5) (h10 : lim.burst = 10) (t : Nat) :
    lim.Allow t =
      if (tokenUnit : Int) - 4 ≤ refilled lim t
      then (true, { lim with last := t, tokens := refilled lim t - tokenUnit })
      else (false, lim) := by
  unfold Limiter.Allow Limiter.AllowN Limiter.reserveN
  simp only [h5, advance_eq lim h5 h10, h10]
  have hw := wait_eq_zero_iff (refilled lim t)
  by_cases hx : (tokenUnit : Int) - 4 ≤ refilled lim t
  · simp only [hx, if_true]
    rw [if_neg (by decide), if_pos]
    · simp
    · simp only [Bool.and_eq_true, decide_eq_true_eq]
      exact ⟨by decide, hw.2 hx⟩
  · simp only [hx, if_false]
    rw [if_neg (by decide), if_neg]
    simp only [Bool.and_eq_true, decide_eq_true_eq, not_and]
    intro _ hc
    exact hx (hw.1 hc)

/-- On a limiter of rate 5 and burst 10 whose token count is a whole number of
nanoseconds of refill (as for every limiter derived from `NewLimiter 5 10`),
`Allow` is the token bucket of the specification: the bucket, refilled at 5
tokens per second up to 10, admits exactly when it holds at least one token,
an admitted call takes exactly one token, and a denied call changes nothing. -/
theorem Allow_spec (lim : Limiter) (h5 : lim.limit = 5) (h10 : lim.burst = 10)
    (hmod : lim.tokens % 5 = 0) (t : Nat) :
    ((lim.Allow t).1 = true ↔ (tokenUnit : Int) ≤ refilled lim t) ∧
    ((lim.Allow t).1 = true →
      (lim.Allow t).2 = { lim with last := t, tokens := refilled lim t - tokenUnit }) ∧
    ((lim.Allow t).1 = false → (lim.Allow t).2 = lim) ∧
    (lim.Allow t).2.tokens % 5 = 0 := by
  have hr : refilled lim t % 5 = 0 := by
    unfold refilled tokenUnit
    rcases min_choice (10 * ((1000000000 : Nat) : Int))
      (lim.tokens + 5 * ((t - min t lim.last : Nat) : Int)) with h | h <;> rw [h] <;> omega
  rw [Allow_eq lim h5 h10]
  by_cases hx : (tokenUnit : Int) - 4 ≤ refilled lim t
  · rw [if_pos hx]
    refine ⟨⟨fun _ => ?_, fun _ => rfl⟩, fun _ => rfl, fun h => Bool.noConfusion h, ?_⟩
    · unfold tokenUnit at *; omega
    · show (refilled lim t - tokenUnit) % 5 = 0
      unfold tokenUnit at *; omega
  · rw [if_neg hx]
    refine ⟨⟨fun h => Bool.noConfusion h, fun h => ?_⟩, fun h => Bool.noConfusion h,
      fun _ => rfl, hmod⟩
    exact absurd (by unfold tokenUnit at *; omega) hx

theorem refilled_le (lim : Limiter) (t : Nat) : refilled lim t ≤ 10 * (tokenUnit : Int) :=
  min_le_left _ _

theorem refilled_after (lim : Limiter) (u : Nat) (x : Int) (hx : x ≤ 10 * (tokenUnit : Int)) :
    refilled { lim with last := u, tokens := x } u = x := by
  unfold refilled
  simp only [min_self, Nat.sub_self, Nat.cast_zero, mul_zero, add_zero]
  exact min_eq_right hx

theorem allow_burst (k : Nat) (lim : Limiter) (h5 : lim.limit = 5) (h10 : lim.burst = 10)
    (u : Nat) (hk : ((k * tokenUnit : Nat) : Int) ≤ refilled lim u) :
    allowSeq lim (List.replicate k u) = List.replicate k true ∧
    (1 ≤ k → allowFinal lim (List.replicate k u)
      = { lim with last := u, tokens := refilled lim u - ((k * tokenUnit : Nat) : Int) }) := by
  induction k generalizing lim with
  | zero => exact ⟨rfl, fun h => absurd h (by decide)⟩
  | succ k ih =>
    have hle := refilled_le lim u
    have hA : lim.Allow u
        = (true, { lim with last := u, tokens := refilled lim u - tokenUnit }) := by
      rw [Allow_eq lim h5 h10, if_pos]
      push_cast at hk
      have : (0 : Int) ≤ (k : Int) * (tokenUnit : Int) :=
        mul_nonneg (Int.natCast_nonneg _) (Int.natCast_nonneg _)
      linarith
    have hr : refilled { lim with last := u, tokens := refilled lim u - tokenUnit } u
        = refilled lim u - tokenUnit :=
      refilled_after lim u _ (by
        have : (0 : Int) ≤ (tokenUnit : Int) := Int.natCast_nonneg _
        linarith)
    have hk' : ((k * tokenUnit : Nat) : Int)
        ≤ refilled { lim with last := u, tokens := refilled lim u - tokenUnit } u := by
      rw [hr]; push_cast at hk ⊢; linarith
    obtain ⟨ih1, ih2⟩ := ih { lim with last := u, tokens := refilled lim u - tokenUnit }
      h5 h10 hk'
    refine ⟨?_, fun _ => ?_⟩
    · simp only [List.replicate_succ, allowSeq, hA, ih1]
    · simp only [List.replicate_succ, allowFinal, hA]
      cases k with
      | zero => simp [allowFinal]
      | succ k =>
        rw [ih2 (Nat.succ_le_succ (Nat.zero_le _)), hr]
        simp only [Limiter.mk.injEq, true_and, and_true]
        push_cast
        ring

theorem allowSeq_append (lim : Limiter) (ts us : List Nat) :
    allowSeq lim (ts ++ us) = allowSeq lim ts ++ allowSeq (allowFinal lim ts) us := by
  induction ts generalizing lim with
  | nil => rfl
  | cons t ts ih =>
    show (lim.Allow t).1 :: allowSeq (lim.Allow t).2 (ts ++ us) = _
    rw [ih]; rfl

theorem step_request {s : State} (hs : s.WF) (r : Request) (t1 t2 : Nat) :
    (step s (.request r t1 t2)).2
      = .decision (getClientIP r) ((viewLimiter (view s (getClientIP r))).Allow t2).1 := by
  show Output.decision _ (admission r t1 t2 s).1 = _
  rw [(admission_view hs r t1 t2).2.1]

theorem outputs_requests {s : State} (hs : s.WF) (r : Request) (ts : List Nat) :
    decisions (outputs s (ts.map fun t => Event.request r t t))
      = allowSeq (viewLimiter (view s (getClientIP r))) ts := by
  induction ts generalizing s with
  | nil => rfl
  | cons t ts ih =>
    have h1 := step_request hs r t t
    have h2 := (step_view hs (.request r t t)).2 (getClientIP r)
    simp only [List.map_cons, outputs, decisions, List.filterMap_cons, h1, allowSeq]
    congr 1
    have := ih (step_view hs (.request r t t)).1
    simp only [decisions] at this
    rw [this, h2]
    simp [viewStep, viewLimiter]

theorem decisionsFor_step {s : State} (hs : s.WF) (B : String) (e : Event) (os : List Output) :
    decisionsFor B ((step s e).2 :: os)
      = (match e with
          | .request r _ t2 =>
            if getClientIP r = B then [((viewLimiter (view s B)).Allow t2).1] else []
          | _ => []) ++ decisionsFor B os := by
  cases e with
  | acquire c now => rfl
  | sweep visits => rfl
  | request r t1 t2 =>
    rw [step_request hs]
    by_cases hB : getClientIP r = B
    · subst hB
      simp [decisionsFor]
    · simp [decisionsFor, hB]

theorem isolation_aux (A B : String) (hAB : A ≠ B) (evs : List Event) (s s' : State)
    (hs : s.WF) (hs' : s'.WF) (hv : view s B = view s' B) :
    decisionsFor B (outputs s evs)
      = decisionsFor B (outputs s' (evs.filter fun e => !isRequestFrom A e)) := by
  induction evs generalizing s s' with
  | nil => rfl
  | cons e es ih =>
    obtain ⟨h1, h2⟩ := step_view hs e
    by_cases hA : isRequestFrom A e = true
    · -- a request of `A`: dropped on the right, invisible to `B` on the left
      rw [List.filter_cons_of_neg (by simp [hA])]
      show decisionsFor B ((step s e).2 :: outputs (step s e).1 es) = _
      rw [decisionsFor_step hs]
      cases e with
      | acquire c now => simp [isRequestFrom] at hA
      | sweep visits => simp [isRequestFrom] at hA
      | request r t1 t2 =>
        have hr : getClientIP r = A := by simpa [isRequestFrom] using hA
        have hrB : ¬ getClientIP r = B := by rw [hr]; exact hAB
        simp only [hrB, if_false, List.nil_append]
        apply ih _ _ h1 hs'
        rw [h2 B, ← hv]
        simp [viewStep, hrB]
    · rw [List.filter_cons_of_pos (by simpa using hA)]
      obtain ⟨k1, k2⟩ := step_view hs' e
      show decisionsFor B ((step s e).2 :: outputs (step s e).1 es)
        = decisionsFor B ((step s' e).2 :: outputs (step s' e).1 _)
      rw [decisionsFor_step hs, decisionsFor_step hs', hv]
      congr 1
      apply ih _ _ h1 k1
      rw [h2 B, k2 B, hv]

/-- Claim C2 (per-identity isolation): for distinct identifiers `A` and `B`,
from any state satisfying the registry invariant and for any sequence of
events, the admission decisions taken for `B` are the same as in the sequence
with all requests of `A` deleted. -/
theorem per_identity_isolation (A B : String) (hAB : A ≠ B) (s : State) (hs : s.WF)
    (evs : List Event) :
    decisionsFor B (outputs s evs)
      = decisionsFor B (outputs s (evs.filter fun e => !isRequestFrom A e)) :=
  isolation_aux A B hAB evs s s hs hs rfl

/-! ## The cleanup pass -/

theorem cleanupVisit_lookup (s : State) (visit : String × Nat) (id : String) :
    (cleanupVisit s visit).heap = s.heap ∧
    (cleanupVisit s visit).ipLimiters.lookup id
      = if visit.1 = id
        then (s.ipLimiters.lookup id).filter
          (fun e => !decide (visit.2 - e.lastSeen > 10 * Minute))
        else s.ipLimiters.lookup id := by
  unfold cleanupVisit
  cases he : s.ipLimiters.lookup visit.1 with
  | none =>
    refine ⟨rfl, ?_⟩
    by_cases hid : visit.1 = id
    · subst hid; simp [he]
    · simp [hid]
  | some e =>
    by_cases hst : visit.2 - e.lastSeen > 10 * Minute
    · simp only [hst, if_true]
      refine ⟨trivial, ?_⟩
      by_cases hid : visit.1 = id
      · subst hid
        simp [AList.lookup_erase, he, Option.filter, hst]
      · rw [if_neg hid]
        exact AList.lookup_erase_ne (fun h => hid h.symm)
    · simp only [hst, if_false]
      refine ⟨trivial, ?_⟩
      by_cases hid : visit.1 = id
      · subst hid
        simp [he, Option.filter, hst]
      · simp [hid]

theorem cleanupLimitersLoop_cons (visits : List (String × Nat))
    (passes : List (List (String × Nat))) (s : State) :
    cleanupLimitersLoop (visits :: passes) s
      = cleanupLimitersLoop passes (cleanupPass visits s) := rfl

theorem cleanupPass_heap (visits : List (String × Nat)) (s : State) :
    (cleanupPass visits s).heap = s.heap := by
  induction visits generalizing s with
  | nil => rfl
  | cons v vs ih =>
    show (cleanupPass vs (cleanupVisit s v)).heap = _
    rw [ih, (cleanupVisit_lookup s v "").1]

theorem cleanupPass_lookup_of_not_mem (visits : List (String × Nat)) (s : State) (id : String)
    (h : id ∉ visits.map Prod.fst) :
    (cleanupPass visits s).ipLimiters.lookup id = s.ipLimiters.lookup id := by
  induction visits generalizing s with
  | nil => rfl
  | cons v vs ih =>
    simp only [List.map_cons, List.mem_cons, not_or] at h
    show (cleanupPass vs (cleanupVisit s v)).ipLimiters.lookup id = _
    rw [ih _ h.2, (cleanupVisit_lookup s v id).2, if_neg (fun e => h.1 e.symm)]

theorem cleanupPass_lookup_of_nodup (visits : List (String × Nat)) (s : State) (id : String)
    (e : ipEntry) (hn : (visits.map Prod.fst).Nodup) (hm : id ∈ visits.map Prod.fst)
    (he : s.ipLimiters.lookup id = some e) :
    ∃ now, (id, now) ∈ visits ∧
      (cleanupPass visits s).ipLimiters.lookup id
        = if now - e.lastSeen > 10 * Minute then none else some e := by
  induction visits generalizing s with
  | nil => simp at hm
  | cons v vs ih =>
    simp only [List.map_cons, List.nodup_cons] at hn
    by_cases hv : v.1 = id
    · refine ⟨v.2, ?_, ?_⟩
      · rw [← hv]; exact List.mem_cons_self _ _
      · show (cleanupPass vs (cleanupVisit s v)).ipLimiters.lookup id = _
        rw [cleanupPass_lookup_of_not_mem vs _ id (hv ▸ hn.1),
          (cleanupVisit_lookup s v id).2, if_pos hv, he]
        by_cases hst : v.2 - e.lastSeen > 10 * Minute <;> simp [Option.filter, hst]
    · have hm' : id ∈ vs.map Prod.fst := by
        simp only [List.map_cons, List.mem_cons] at hm
        rcases hm with hm | hm
        · exact absurd hm.symm hv
        · exact hm
      have he' : (cleanupVisit s v).ipLimiters.lookup id = some e := by
        rw [(cleanupVisit_lookup s v id).2, if_neg hv, he]
      obtain ⟨now, h1, h2⟩ := ih (cleanupVisit s v) hn.2 hm' he'
      exact ⟨now, List.mem_cons_of_mem _ h1, h2⟩

theorem cleanupPass_lookup_none (visits : List (String × Nat)) (s : State) (id : String)
    (he : s.ipLimiters.lookup id = none) :
    (cleanupPass visits s).ipLimiters.lookup id = none := by
  induction visits generalizing s with
  | nil => exact he
  | cons v vs ih =>
    apply ih
    rw [(cleanupVisit_lookup s v id).2, he]
    simp

/-- Claim C3, amended (eviction correctness): in a scan of the whole map that
starts at time `t`, every entry is examined at its own clock reading `now`,
not before `t`; the entry is removed when `now - lastSeen` exceeds 10 minutes
and is kept unchanged otherwise. An identifier without an entry has none
afterwards, no limiter is touched, and every entry that is already stale at
the start of the scan is removed. -/
theorem cleanup_scan_per_entry_clock (s : State) (t : Nat) (visits : List (String × Nat))
    (hscan : IsScan t visits s) :
    (cleanupPass visits s).heap = s.heap ∧
    (∀ id, s.ipLimiters.lookup id = none →
      (cleanupPass visits s).ipLimiters.lookup id = none) ∧
    (∀ id e, s.ipLimiters.lookup id = some e →
      ∃ now, (id, now) ∈ visits ∧ t ≤ now ∧
        (cleanupPass visits s).ipLimiters.lookup id
          = if now - e.lastSeen > 10 * Minute then none else some e) ∧
    (∀ id e, s.ipLimiters.lookup id = some e → t - e.lastSeen > 10 * Minute →
      (cleanupPass visits s).ipLimiters.lookup id = none) := by
  have hn : (visits.map Prod.fst).Nodup := hscan.1.nodup_iff.2 s.ipLimiters.keys_nodup
  have key : ∀ id e, s.ipLimiters.lookup id = some e →
      ∃ now, (id, now) ∈ visits ∧ t ≤ now ∧
        (cleanupPass visits s).ipLimiters.lookup id
          = if now - e.lastSeen > 10 * Minute then none else some e := by
    intro id e he
    have hk : id ∈ s.ipLimiters.keys := by
      rw [← AList.mem_keys, ← AList.lookup_isSome, he]; rfl
    obtain ⟨now, h1, h2⟩ :=
      cleanupPass_lookup_of_nodup visits s id e hn (hscan.1.mem_iff.2 hk) he
    exact ⟨now, h1, hscan.2 _ h1, h2⟩
  refine ⟨cleanupPass_heap visits s, fun id he => cleanupPass_lookup_none visits s id he,
    key, ?_⟩
  intro id e he hst
  obtain ⟨now, -, h2, h3⟩ := key id e he
  rw [h3, if_pos (by omega)]

theorem cleanup_scan_per_entry_clock_witness :
    IsScan (10 * Minute) [("203.0.113.7", 10 * Minute + 1)] oneClient ∧
    (cleanupPass [("203.0.113.7", 10 * Minute + 1)] oneClient).heap = [NewLimiter 5 10] :=
  ⟨⟨List.Perm.refl _, by decide⟩,
    (cleanup_scan_per_entry_clock oneClient (10 * Minute) [("203.0.113.7", 10 * Minute + 1)]
      ⟨List.Perm.refl _, by decide⟩).1⟩

/-- Claim C3 as stated fails: the scan starts at `t = 10 min`, the only entry
has `lastSeen = 0`, so `t - lastSeen ≤ 10 min`; `time.Since` reads the clock one
nanosecond later and the entry is removed. -/
theorem cleanup_scan_start_counterexample :
    IsScan (10 * Minute) [("203.0.113.7", 10 * Minute + 1)] oneClient ∧
    oneClient.ipLimiters.lookup "203.0.113.7" = some ⟨0, 0⟩ ∧
    10 * Minute - (0 : Nat) ≤ 10 * Minute ∧
    (cleanupPass [("203.0.113.7", 10 * Minute + 1)] oneClient).ipLimiters.lookup "203.0.113.7"
      = none :=
  ⟨⟨List.Perm.refl _, by decide⟩, by decide, by decide, by decide⟩

/-! ## Acquire -/

theorem getRateLimiter_frame (s : State) (id : String) (now : Nat) :
    (∀ entry, s.ipLimiters.lookup id = some entry →
      (getRateLimiter id now s).1 = entry.limiter ∧
      (getRateLimiter id now s).2.heap = s.heap) ∧
    (s.ipLimiters.lookup id = none →
      (getRateLimiter id now s).1 = s.heap.length ∧
      (getRateLimiter id now s).2.heap = s.heap ++ [NewLimiter 5 10] ∧
      (getRateLimiter id now s).2.heap[(getRateLimiter id now s).1]?
        = some { limit := 5, burst := 10, tokens := 10 * (tokenUnit : Int), last := 0 }) ∧
    (getRateLimiter id now s).2.ipLimiters.lookup id
      = some { limiter := (getRateLimiter id now s).1, lastSeen := now } ∧
    (∀ id', id' ≠ id →
      (getRateLimiter id now s).2.ipLimiters.lookup id' = s.ipLimiters.lookup id') ∧
    (∀ id', id' ∈ s.ipLimiters → id' ∈ (getRateLimiter id now s).2.ipLimiters) ∧
    (∀ (a : Nat) (lim : Limiter), s.heap[a]? = some lim →
      (getRateLimiter id now s).2.heap[a]? = some lim) := by
  unfold getRateLimiter
  cases h : s.ipLimiters.lookup id with
  | some entry =>
    refine ⟨?_, ?_, ?_, ?_, ?_, ?_⟩
    · intro entry' he
      cases he
      exact ⟨rfl, rfl⟩
    · intro hc; cases hc
    · simp [AList.lookup_insert]
    · intro id' hne
      exact AList.lookup_insert_ne hne
    · intro id' hm
      exact (AList.mem_insert _).2 (Or.inr hm)
    · intro a lim ha
      exact ha
  | none =>
    refine ⟨?_, ?_, ?_, ?_, ?_, ?_⟩
    · intro entry' he; cases he
    · intro _
      refine ⟨rfl, rfl, ?_⟩
      simp [NewLimiter]
    · simp [AList.lookup_insert]
    · intro id' hne
      exact AList.lookup_insert_ne hne
    · intro id' hm
      exact (AList.mem_insert _).2 (Or.inr hm)
    · intro a lim ha
      have hlt : a < s.heap.length := by
        by_contra hge
        rw [List.getElem?_eq_none (Nat.le_of_not_lt hge)] at ha
        cases ha
      show (s.heap ++ [NewLimiter 5 10])[a]? = some lim
      rw [List.getElem?_append_left hlt, ha]

/-- Claim C8 (acquire postcondition): `getRateLimiter id` at clock reading
`now` returns the limiter already stored for `id`, leaving every limiter
untouched, when `id` has an entry; otherwise it returns a newly allocated
limiter of rate 5 tokens per second and burst 10, with a full bucket.
Afterwards the map sends `id` to an entry holding the returned limiter with
`lastSeen = now`, the entries of all other clients are unchanged, no entry has
been removed, and no limiter allocated before has changed. -/
theorem getRateLimiter_postcondition (s : State) (id : String) (now : Nat) :
    (∀ entry, s.ipLimiters.lookup id = some entry →
      (getRateLimiter id now s).1 = entry.limiter ∧
      (getRateLimiter id now s).2.heap = s.heap) ∧
    (s.ipLimiters.lookup id = none →
      (getRateLimiter id now s).1 = s.heap.length ∧
      (getRateLimiter id now s).2.heap = s.heap ++ [NewLimiter 5 10] ∧
      (getRateLimiter id now s).2.heap[(getRateLimiter id now s).1]?
        = some { limit := 5, burst := 10, tokens := 10 * (tokenUnit : Int), last := 0 }) ∧
    (getRateLimiter id now s).2.ipLimiters.lookup id
      = some { limiter := (getRateLimiter id now s).1, lastSeen := now } ∧
    (∀ id', id' ≠ id →
      (getRateLimiter id now s).2.ipLimiters.lookup id' = s.ipLimiters.lookup id') ∧
    (∀ id', id' ∈ s.ipLimiters → id' ∈ (getRateLimiter id now s).2.ipLimiters) ∧
    (∀ (a : Nat) (lim : Limiter), s.heap[a]? = some lim →
      (getRateLimiter id now s).2.heap[a]? = some lim) :=
  getRateLimiter_frame s id now

theorem getRateLimiter_postcondition_witness :
    oneClient.ipLimiters.lookup "203.0.113.7" = some ⟨0, 0⟩ ∧
    (getRateLimiter "203.0.113.7" 5 oneClient).1 = 0 ∧
    (getRateLimiter "203.0.113.7" 5 oneClient).2.heap = oneClient.heap ∧
    oneClient.ipLimiters.lookup "198.51.100.9" = none ∧
    (getRateLimiter "198.51.100.9" 5 oneClient).1 = 1 :=
  ⟨by decide,
    ((getRateLimiter_postcondition oneClient "203.0.113.7" 5).1 ⟨0, 0⟩ (by decide)).1,
    ((getRateLimiter_postcondition oneClient "203.0.113.7" 5).1 ⟨0, 0⟩ (by decide)).2,
    by decide,
    ((getRateLimiter_postcondition oneClient "198.51.100.9" 5).2.1 (by decide)).1⟩

/-! ## The middleware -/

/-- Claim C7 (denial response shape): for a response not yet started, when
the limiter denies the request the middleware answers with status 429 and the
wrapped handler is not invoked (its world and its invocation counter are
unchanged); when the limiter admits the request the wrapped handler is invoked
exactly once, on the untouched response, and its result is returned as is. -/
theorem rateLimitMiddleware_denial_shape {σ : Type} (next : Handler σ) (request : Request)
    (tAcquire tAllow : Nat) (s : State) (world : σ) (calls : Nat) (response : ResponseWriter)
    (hfresh : response.status = none) :
    (rateLimitMiddleware (counting next) request tAcquire tAllow s (world, calls) response).1
      = (admission request tAcquire tAllow s).2 ∧
    ((admission request tAcquire tAllow s).1 = false →
      (rateLimitMiddleware (counting next) request tAcquire tAllow s (world, calls)
        response).2.2.status = some 429 ∧
      (rateLimitMiddleware (counting next) request tAcquire tAllow s (world, calls)
        response).2.1 = (world, calls)) ∧
    ((admission request tAcquire tAllow s).1 = true →
      (rateLimitMiddleware (counting next) request tAcquire tAllow s (world, calls)
        response).2.1.2 = calls + 1 ∧
      ((rateLimitMiddleware (counting next) request tAcquire tAllow s (world, calls)
          response).2.1.1,
        (rateLimitMiddleware (counting next) request tAcquire tAllow s (world, calls)
          response).2.2) = next request world response) := by
  have hdef : rateLimitMiddleware (counting next) request tAcquire tAllow s (world, calls)
        response
      = if !(admission request tAcquire tAllow s).1 then
          ((admission request tAcquire tAllow s).2, (world, calls),
            httpError response "Too Many Requests" StatusTooManyRequests)
        else
          ((admission request tAcquire tAllow s).2,
            ((next request world response).1, calls + 1), (next request world response).2) :=
    rfl
  rw [hdef]
  cases hadm : (admission request tAcquire tAllow s).1 with
  | false =>
    refine ⟨rfl, fun _ => ⟨?_, rfl⟩, fun h => Bool.noConfusion h⟩
    simp [httpError, hfresh, StatusTooManyRequests]
  | true =>
    exact ⟨rfl, fun h => Bool.noConfusion h, fun _ => ⟨rfl, rfl⟩⟩

theorem rateLimitMiddleware_denial_shape_witness :
    (admission ⟨[], "203.0.113.7:54321"⟩ 0 0 exhaustedClient).1 = false ∧
    (rateLimitMiddleware (counting helloHandler) ⟨[], "203.0.113.7:54321"⟩ 0 0 exhaustedClient
      ((), 0) ⟨[], none, ""⟩).2.2.status = some 429 ∧
    (rateLimitMiddleware (counting helloHandler) ⟨[], "203.0.113.7:54321"⟩ 0 0 exhaustedClient
      ((), 0) ⟨[], none, ""⟩).2.1 = ((), 0) ∧
    (admission ⟨[], "203.0.113.7:54321"⟩ 0 0 oneClient).1 = true ∧
    (rateLimitMiddleware (counting helloHandler) ⟨[], "203.0.113.7:54321"⟩ 0 0 oneClient
      ((), 0) ⟨[], none, ""⟩).2.1.2 = 0 + 1 :=
  ⟨by decide,
    ((rateLimitMiddleware_denial_shape helloHandler ⟨[], "203.0.113.7:54321"⟩ 0 0
      exhaustedClient () 0 ⟨[], none, ""⟩ rfl).2.1 (by decide)).1,
    ((rateLimitMiddleware_denial_shape helloHandler ⟨[], "203.0.113.7:54321"⟩ 0 0
      exhaustedClient () 0 ⟨[], none, ""⟩ rfl).2.1 (by decide)).2,
    by decide,
    ((rateLimitMiddleware_denial_shape helloHandler ⟨[], "203.0.113.7:54321"⟩ 0 0
      oneClient () 0 ⟨[], none, ""⟩ rfl).2.2 (by decide)).1⟩

/-! ## Lazy creation -/

theorem limiterAllow_heap (a : Nat) (t : Nat) (s : State) (lim : Limiter)
    (h : s.heap[a]? = some lim) :
    (limiterAllow a t s).2.ipLimiters = s.ipLimiters ∧
    (limiterAllow a t s).2.heap.length = s.heap.length ∧
    (limiterAllow a t s).2.heap[a]? = some (lim.Allow t).2 ∧
    (∀ b : Nat, b ≠ a → (limiterAllow a t s).2.heap[b]? = s.heap[b]?) := by
  have hlt : a < s.heap.length := by
    by_contra hge
    rw [List.getElem?_eq_none (Nat.le_of_not_lt hge)] at h
    cases h
  have hdef : limiterAllow a t s
      = ((lim.Allow t).1, { s with heap := s.heap.set a (lim.Allow t).2 }) := by
    simp [limiterAllow, h]
  rw [hdef]
  refine ⟨rfl, by simp, ?_, ?_⟩
  · simp [List.getElem?_set_self hlt]
  · intro b hb
    simp [List.getElem?_set_ne (fun e => hb e.symm)]

theorem step_existing (id : String) (a ls : Nat) (lim : Limiter) (s : State) (e : Event)
    (he : acquiresFor id e = true) (hl : s.ipLimiters.lookup id = some ⟨a, ls⟩)
    (ha : s.heap[a]? = some lim) :
    (∀ c b, (step s e).2 = .handle c b → b = a) ∧
    (step s e).1.ipLimiters.keys.length = s.ipLimiters.keys.length ∧
    (step s e).1.heap.length = s.heap.length ∧
    (∃ ls', (step s e).1.ipLimiters.lookup id = some ⟨a, ls'⟩) ∧
    (∀ id', id' ≠ id → (step s e).1.ipLimiters.lookup id' = s.ipLimiters.lookup id') ∧
    (step s e).1.heap[a]? = some (allowFinal lim (allowTimes [e])) ∧
    (∀ b : Nat, b ≠ a → (step s e).1.heap[b]? = s.heap[b]?) := by
  have hmem : id ∈ s.ipLimiters.keys := by
    rw [← AList.mem_keys, ← AList.lookup_isSome, hl]; rfl
  have hg : ∀ now, getRateLimiter id now s
      = (a, { s with ipLimiters := s.ipLimiters.insert id ⟨a, now⟩ }) := by
    intro now; simp [getRateLimiter, hl]
  have hkeys : ∀ now, (s.ipLimiters.insert id (⟨a, now⟩ : ipEntry)).keys.length
      = s.ipLimiters.keys.length := by
    intro now
    rw [AList.keys_insert, List.length_cons, List.length_erase_of_mem hmem]
    have : 0 < s.ipLimiters.keys.length := List.length_pos_of_mem hmem
    omega
  cases e with
  | sweep visits => simp [acquiresFor] at he
  | acquire c now =>
    have hc : c = id := by simpa [acquiresFor] using he
    subst hc
    have hstep : step s (.acquire c now)
        = ({ s with ipLimiters := s.ipLimiters.insert c ⟨a, now⟩ }, .handle c a) := by
      simp [step, hg]
    rw [hstep]
    refine ⟨?_, hkeys now, rfl, ⟨now, AList.lookup_insert _⟩, ?_, ha, fun b _ => rfl⟩
    · intro c' b hb; cases hb; rfl
    · intro id' hne; exact AList.lookup_insert_ne hne
  | request r t1 t2 =>
    have hc : getClientIP r = id := by simpa [acquiresFor] using he
    have hstep : step s (.request r t1 t2)
        = ((limiterAllow a t2 { s with ipLimiters := s.ipLimiters.insert id ⟨a, t1⟩ }).2,
            .decision id (limiterAllow a t2
              { s with ipLimiters := s.ipLimiters.insert id ⟨a, t1⟩ }).1) := by
      simp [step, admission_eq, hc, hg]
    obtain ⟨k1, k2, k3, k4⟩ := limiterAllow_heap a t2
      { s with ipLimiters := s.ipLimiters.insert id ⟨a, t1⟩ } lim ha
    rw [hstep]
    refine ⟨?_, ?_, k2, ⟨t1, ?_⟩, ?_, k3, k4⟩
    · intro c' b hb; cases hb
    · show (limiterAllow _ _ _).2.ipLimiters.keys.length = _
      rw [k1]; exact hkeys t1
    · show (limiterAllow _ _ _).2.ipLimiters.lookup id = _
      rw [k1]; exact AList.lookup_insert _
    · intro id' hne
      show (limiterAllow _ _ _).2.ipLimiters.lookup id' = _
      rw [k1]; exact AList.lookup_insert_ne hne

theorem allowFinal_append (lim : Limiter) (ts us : List Nat) :
    allowFinal lim (ts ++ us) = allowFinal (allowFinal lim ts) us := by
  induction ts generalizing lim with
  | nil => rfl
  | cons t ts ih =>
    show allowFinal (lim.Allow t).2 (ts ++ us) = _
    rw [ih]; rfl

theorem allowTimes_cons (e : Event) (es : List Event) :
    allowTimes (e :: es) = allowTimes [e] ++ allowTimes es := by
  cases e <;> rfl

theorem run_existing (id : String) (a : Nat) (evs : List Event) (s : State) (ls : Nat)
    (lim : Limiter) (hall : ∀ e ∈ evs, acquiresFor id e = true)
    (hl : s.ipLimiters.lookup id = some ⟨a, ls⟩) (ha : s.heap[a]? = some lim) :
    (∀ o ∈ outputs s evs, ∀ c b, o = Output.handle c b → b = a) ∧
    (exec s evs).ipLimiters.keys.length = s.ipLimiters.keys.length ∧
    (exec s evs).heap.length = s.heap.length ∧
    (∃ ls', (exec s evs).ipLimiters.lookup id = some ⟨a, ls'⟩) ∧
    (∀ id', id' ≠ id → (exec s evs).ipLimiters.lookup id' = s.ipLimiters.lookup id') ∧
    (exec s evs).heap[a]? = some (allowFinal lim (allowTimes evs)) ∧
    (∀ b : Nat, b ≠ a → (exec s evs).heap[b]? = s.heap[b]?) := by
  induction evs generalizing s ls lim with
  | nil =>
    exact ⟨fun o ho => (by cases ho), rfl, rfl, ⟨ls, hl⟩, fun _ _ => rfl, ha, fun _ _ => rfl⟩
  | cons e es ih =>
    obtain ⟨h1, h2, h3, ⟨ls', h4⟩, h5, h6, h7⟩ :=
      step_existing id a ls lim s e (hall e (List.mem_cons_self _ _)) hl ha
    obtain ⟨k1, k2, k3, k4, k5, k6, k7⟩ :=
      ih (step s e).1 ls' _ (fun x hx => hall x (List.mem_cons_of_mem _ hx)) h4 h6
    refine ⟨?_, k2.trans h2, k3.trans h3, k4, fun id' hne => (k5 id' hne).trans (h5 id' hne),
      ?_, fun b hb => (k7 b hb).trans (h7 b hb)⟩
    · intro o ho c b hob
      rcases List.mem_cons.1 ho with ho | ho
      · exact h1 c b (ho ▸ hob)
      · exact k1 o ho c b hob
    · show (exec (step s e).1 es).heap[a]? = _
      rw [k6, allowTimes_cons e es, allowFinal_append]

theorem step_created (id : String) (s : State) (e : Event)
    (he : acquiresFor id e = true) (hl : s.ipLimiters.lookup id = none) :
    (∀ c b, (step s e).2 = .handle c b → b = s.heap.length) ∧
    (step s e).1.ipLimiters.keys.length = s.ipLimiters.keys.length + 1 ∧
    (step s e).1.heap.length = s.heap.length + 1 ∧
    (∃ ls', (step s e).1.ipLimiters.lookup id = some ⟨s.heap.length, ls'⟩) ∧
    (∀ id', id' ≠ id → (step s e).1.ipLimiters.lookup id' = s.ipLimiters.lookup id') ∧
    (step s e).1.heap[s.heap.length]?
      = some (allowFinal (NewLimiter 5 10) (allowTimes [e])) ∧
    (∀ b : Nat, b < s.heap.length → (step s e).1.heap[b]? = s.heap[b]?) := by
  have hmem : id ∉ s.ipLimiters := AList.lookup_eq_none.1 hl
  have hg : ∀ now, getRateLimiter id now s
      = (s.heap.length, { heap := s.heap ++ [NewLimiter 5 10]
                          ipLimiters := s.ipLimiters.insert id ⟨s.heap.length, now⟩ }) := by
    intro now; simp [getRateLimiter, hl]
  have hkeys : ∀ now, (s.ipLimiters.insert id (⟨s.heap.length, now⟩ : ipEntry)).keys.length
      = s.ipLimiters.keys.length + 1 := by
    intro now
    rw [AList.keys_insert, List.length_cons,
      List.erase_of_not_mem (fun h => hmem (AList.mem_keys.2 h))]
  cases e with
  | sweep visits => simp [acquiresFor] at he
  | acquire c now =>
    have hc : c = id := by simpa [acquiresFor] using he
    subst hc
    have hstep : step s (.acquire c now)
        = ({ heap := s.heap ++ [NewLimiter 5 10]
             ipLimiters := s.ipLimiters.insert c ⟨s.heap.length, now⟩ },
            .handle c s.heap.length) := by
      simp [step, hg]
    rw [hstep]
    refine ⟨?_, hkeys now, by simp, ⟨now, AList.lookup_insert _⟩, ?_, ?_, ?_⟩
    · intro c' b hb; cases hb; rfl
    · intro id' hne; exact AList.lookup_insert_ne hne
    · exact List.getElem?_concat_length _ _
    · intro b hb; exact List.getElem?_append_left hb
  | request r t1 t2 =>
    have hc : getClientIP r = id := by simpa [acquiresFor] using he
    have hstep : step s (.request r t1 t2)
        = ((limiterAllow s.heap.length t2
              { heap := s.heap ++ [NewLimiter 5 10]
                ipLimiters := s.ipLimiters.insert id ⟨s.heap.length, t1⟩ }).2,
            .decision id (limiterAllow s.heap.length t2
              { heap := s.heap ++ [NewLimiter 5 10]
                ipLimiters := s.ipLimiters.insert id ⟨s.heap.length, t1⟩ }).1) := by
      simp [step, admission_eq, hc, hg]
    obtain ⟨k1, k2, k3, k4⟩ := limiterAllow_heap s.heap.length t2
      { heap := s.heap ++ [NewLimiter 5 10]
        ipLimiters := s.ipLimiters.insert id ⟨s.heap.length, t1⟩ } (NewLimiter 5 10)
      (List.getElem?_concat_length _ _)
    rw [hstep]
    refine ⟨?_, ?_, ?_, ⟨t1, ?_⟩, ?_, k3, ?_⟩
    · intro c' b hb; cases hb
    · show (limiterAllow _ _ _).2.ipLimiters.keys.length = _
      rw [k1]; exact hkeys t1
    · show (limiterAllow _ _ _).2.heap.length = _
      rw [k2]; simp
    · show (limiterAllow _ _ _).2.ipLimiters.lookup id = _
      rw [k1]; exact AList.lookup_insert _
    · intro id' hne
      show (limiterAllow _ _ _).2.ipLimiters.lookup id' = _
      rw [k1]; exact AList.lookup_insert_ne hne
    · intro b hb
      show (limiterAllow _ _ _).2.heap[b]? = _
      rw [k4 b (Nat.ne_of_lt hb)]
      exact List.getElem?_append_left hb

/-- Claim C9 (idempotent lazy creation): when `id` has no entry, any
non-empty sequence of calls of `getRateLimiter` for `id` (bare, or inside the
middleware), in any order and at any clock readings, with no scan in between,
allocates exactly one limiter and adds exactly one entry to the map; every call
returns that limiter; the entries and limiters of other clients are unchanged;
and the limiter is never replaced or reset: its contents are those of a new
limiter after the `Allow` calls made on it. -/
theorem lazy_creation_idempotent (s : State) (id : String) (evs : List Event)
    (hnew : s.ipLimiters.lookup id = none) (hne : evs ≠ [])
    (hall : ∀ e ∈ evs, acquiresFor id e = true) :
    (∀ o ∈ outputs s evs, ∀ c b, o = Output.handle c b → b = s.heap.length) ∧
    (exec s evs).ipLimiters.keys.length = s.ipLimiters.keys.length + 1 ∧
    (exec s evs).heap.length = s.heap.length + 1 ∧
    (∃ lastSeen, (exec s evs).ipLimiters.lookup id = some ⟨s.heap.length, lastSeen⟩) ∧
    (∀ id', id' ≠ id → (exec s evs).ipLimiters.lookup id' = s.ipLimiters.lookup id') ∧
    (exec s evs).heap[s.heap.length]?
      = some (allowFinal (NewLimiter 5 10) (allowTimes evs)) ∧
    (∀ b : Nat, b < s.heap.length → (exec s evs).heap[b]? = s.heap[b]?) := by
  cases evs with
  | nil => exact absurd rfl hne
  | cons e es =>
    obtain ⟨h1, h2, h3, ⟨ls', h4⟩, h5, h6, h7⟩ :=
      step_created id s e (hall e (List.mem_cons_self _ _)) hnew
    obtain ⟨k1, k2, k3, k4, k5, k6, k7⟩ :=
      run_existing id s.heap.length es (step s e).1 ls' _
        (fun x hx => hall x (List.mem_cons_of_mem _ hx)) h4 h6
    refine ⟨?_, k2.trans h2, k3.trans h3, k4, fun id' hne => (k5 id' hne).trans (h5 id' hne),
      ?_, fun b hb => (k7 b (Nat.ne_of_lt hb)).trans (h7 b hb)⟩
    · intro o ho c b hob
      rcases List.mem_cons.1 ho with ho | ho
      · exact h1 c b (ho ▸ hob)
      · exact k1 o ho c b hob
    · show (exec (step s e).1 es).heap[s.heap.length]? = _
      rw [k6, allowTimes_cons e es, allowFinal_append]

/-! ## Active clients are not evicted -/

theorem chronological_cons {e : Event} {es : List Event} (h : Chronological (e :: es)) :
    Chronological es ∧ ∀ t ∈ e.times, ∀ e' ∈ es, ∀ t' ∈ e'.times, t ≤ t' := by
  unfold Chronological at h ⊢
  rw [List.map_cons, List.flatten_cons, List.pairwise_append] at h
  refine ⟨h.2.1, ?_⟩
  intro t ht e' he' t' ht'
  exact h.2.2 t ht t' (List.mem_flatten.2 ⟨e'.times, List.mem_map.2 ⟨e', he', rfl⟩, ht'⟩)

theorem limiterAllow_ipLimiters (a t : Nat) (s : State) :
    (limiterAllow a t s).2.ipLimiters = s.ipLimiters := by
  unfold limiterAllow
  cases s.heap[a]? <;> rfl

theorem step_lookup_acquire (id : String) (s : State) (e : Event) (t : Nat)
    (ht : acquireTime id e = some t) :
    (step s e).1.ipLimiters.lookup id = some ⟨(getRateLimiter id t s).1, t⟩ ∧
    (∀ b, (step s e).2 = .handle id b → b = (getRateLimiter id t s).1) := by
  cases e with
  | sweep visits => simp [acquireTime] at ht
  | acquire c now =>
    by_cases hc : c = id
    · subst hc
      simp only [acquireTime, if_true, Option.some.injEq] at ht
      subst ht
      refine ⟨(getRateLimiter_frame s c now).2.2.1, ?_⟩
      intro b hb
      have : step s (.acquire c now) = ((getRateLimiter c now s).2,
          .handle c (getRateLimiter c now s).1) := rfl
      rw [this] at hb
      cases hb; rfl
    · simp [acquireTime, hc] at ht
  | request r t1 t2 =>
    by_cases hc : getClientIP r = id
    · simp only [acquireTime, hc, if_true, Option.some.injEq] at ht
      subst ht
      refine ⟨?_, ?_⟩
      · show (admission r t1 t2 s).2.ipLimiters.lookup id = _
        rw [admission_eq, limiterAllow_ipLimiters, hc]
        exact (getRateLimiter_frame s id t1).2.2.1
      · intro b hb
        have : step s (.request r t1 t2) = ((admission r t1 t2 s).2,
          .decision (getClientIP r) (admission r t1 t2 s).1) := rfl
        rw [this] at hb
        cases hb
    · simp [acquireTime, hc] at ht

theorem step_lookup_other (id : String) (s : State) (e : Event)
    (ht : acquireTime id e = none) (hsw : ∀ visits, e ≠ .sweep visits) :
    (step s e).1.ipLimiters.lookup id = s.ipLimiters.lookup id ∧
    (∀ b, (step s e).2 ≠ .handle id b) := by
  cases e with
  | sweep visits => exact absurd rfl (hsw visits)
  | acquire c now =>
    have hc : ¬ c = id := by
      intro hc; simp [acquireTime, hc] at ht
    refine ⟨(getRateLimiter_frame s c now).2.2.2.1 id (fun h => hc h.symm), ?_⟩
    intro b hb
    have : step s (.acquire c now) = ((getRateLimiter c now s).2,
        .handle c (getRateLimiter c now s).1) := rfl
    rw [this] at hb
    simp only [Prod.mk.injEq, Output.handle.injEq] at hb
    exact hc hb.1
  | request r t1 t2 =>
    have hc : ¬ getClientIP r = id := by
      intro hc; simp [acquireTime, hc] at ht
    refine ⟨?_, ?_⟩
    · show (admission r t1 t2 s).2.ipLimiters.lookup id = _
      rw [admission_eq, limiterAllow_ipLimiters]
      exact (getRateLimiter_frame s _ t1).2.2.2.1 id (fun h => hc h.symm)
    · intro b hb
      have : step s (.request r t1 t2) = ((admission r t1 t2 s).2,
        .decision (getClientIP r) (admission r t1 t2 s).1) := rfl
      rw [this] at hb
      cases hb

theorem acquireTime_isSome (id : String) (e : Event) :
    (acquireTime id e).isSome = acquiresFor id e := by
  cases e with
  | sweep visits => rfl
  | acquire c now => by_cases hc : c = id <;> simp [acquireTime, acquiresFor, hc]
  | request r t1 t2 =>
    by_cases hc : getClientIP r = id <;> simp [acquireTime, acquiresFor, hc]

theorem acquireTime_mem_times (id : String) (e : Event) (t : Nat)
    (h : acquireTime id e = some t) : t ∈ e.times := by
  cases e with
  | sweep visits => simp [acquireTime] at h
  | acquire c now =>
    by_cases hc : c = id <;> simp [acquireTime, hc] at h
    subst h; simp [Event.times]
  | request r t1 t2 =>
    by_cases hc : getClientIP r = id <;> simp [acquireTime, hc] at h
    subst h; simp [Event.times]

theorem cleanupPass_lookup_fresh (visits : List (String × Nat)) (s : State) (id : String)
    (e : ipEntry) (he : s.ipLimiters.lookup id = some e)
    (hfresh : ∀ now, (id, now) ∈ visits → now - e.lastSeen ≤ 10 * Minute) :
    (cleanupPass visits s).ipLimiters.lookup id = some e := by
  induction visits generalizing s with
  | nil => exact he
  | cons v vs ih =>
    apply ih
    · rw [(cleanupVisit_lookup s v id).2]
      by_cases hv : v.1 = id
      · have := hfresh v.2 (by rw [← hv]; exact List.mem_cons_self _ _)
        rw [if_pos hv, he]
        simp only [Option.filter]
        rw [if_pos]
        simp only [Bool.not_eq_true', decide_eq_false_iff_not]
        omega
      · rw [if_neg hv, he]
    · intro now hm
      exact hfresh now (List.mem_cons_of_mem _ hm)

theorem active_phase (id : String) (a : Nat) (evs : List Event) (s : State) (ls : Nat)
    (hl : s.ipLimiters.lookup id = some ⟨a, ls⟩)
    (hchrono : Chronological evs)
    (hlb : ∀ e ∈ evs, ∀ t ∈ e.times, ls ≤ t)
    (hactive : ∀ pre visits post now, evs = pre ++ Event.sweep visits :: post →
      (id, now) ∈ visits →
      now ≤ ls + sweepInterval ∨
        ∃ e ∈ pre, ∃ t, acquireTime id e = some t ∧ now ≤ t + sweepInterval) :
    (∀ pre post, evs = pre ++ post →
      ∃ lastSeen, (exec s pre).ipLimiters.lookup id = some ⟨a, lastSeen⟩) ∧
    (∀ o ∈ outputs s evs, ∀ b, o = Output.handle id b → b = a) := by
  induction evs generalizing s ls with
  | nil =>
    refine ⟨?_, fun o ho => (by cases ho)⟩
    intro pre post h
    have : pre = [] := by
      cases pre with
      | nil => rfl
      | cons x xs => cases h
    subst this
    exact ⟨ls, hl⟩
  | cons e es ih =>
    obtain ⟨hc1, hc2⟩ := chronological_cons hchrono
    -- the state after `e` still maps `id` to limiter `a`
    have hstep : ∃ ls', (step s e).1.ipLimiters.lookup id = some ⟨a, ls'⟩ ∧
        (∀ b, (step s e).2 = .handle id b → b = a) ∧
        (∀ e' ∈ es, ∀ t ∈ e'.times, ls' ≤ t) ∧
        (∀ pre visits post now, es = pre ++ Event.sweep visits :: post →
          (id, now) ∈ visits →
          now ≤ ls' + sweepInterval ∨
            ∃ e' ∈ pre, ∃ t, acquireTime id e' = some t ∧ now ≤ t + sweepInterval) := by
      cases hat : acquireTime id e with
      | some t =>
        obtain ⟨h1, h2⟩ := step_lookup_acquire id s e t hat
        have ha : (getRateLimiter id t s).1 = a :=
          ((getRateLimiter_frame s id t).1 _ hl).1
        rw [ha] at h1 h2
        refine ⟨t, h1, h2, ?_, ?_⟩
        · intro e' he' t' ht'
          exact hc2 t (acquireTime_mem_times id e t hat) e' he' t' ht'
        · intro pre visits post now hsplit hm
          rcases hactive (e :: pre) visits post now (by rw [hsplit]; rfl) hm with h | h
          · left
            have := hlb e (List.mem_cons_self _ _) t (acquireTime_mem_times id e t hat)
            omega
          · obtain ⟨e', he', t', ht', hle⟩ := h
            rcases List.mem_cons.1 he' with rfl | he'
            · left
              rw [hat] at ht'
              cases ht'
              exact hle
            · exact Or.inr ⟨e', he', t', ht', hle⟩
      | none =>
        have hrest : ∀ pre visits post now, es = pre ++ Event.sweep visits :: post →
            (id, now) ∈ visits →
            now ≤ ls + sweepInterval ∨
              ∃ e' ∈ pre, ∃ t, acquireTime id e' = some t ∧ now ≤ t + sweepInterval := by
          intro pre visits post now hsplit hm
          rcases hactive (e :: pre) visits post now (by rw [hsplit]; rfl) hm with h | h
          · exact Or.inl h
          · obtain ⟨e', he', t', ht', hle⟩ := h
            rcases List.mem_cons.1 he' with rfl | he'
            · rw [hat] at ht'; cases ht'
            · exact Or.inr ⟨e', he', t', ht', hle⟩
        have hlb' : ∀ e' ∈ es, ∀ t ∈ e'.times, ls ≤ t :=
          fun e' he' => hlb e' (List.mem_cons_of_mem _ he')
        cases e with
        | sweep visits =>
          refine ⟨ls, ?_, fun b hb => (by cases hb), hlb', hrest⟩
          show (cleanupPass visits s).ipLimiters.lookup id = _
          apply cleanupPass_lookup_fresh visits s id ⟨a, ls⟩ hl
          intro now hm
          rcases hactive [] visits es now rfl hm with h | h
          · simp only [sweepInterval, Minute, Second] at h ⊢
            omega
          · obtain ⟨e', he', -⟩ := h
            cases he'
        | acquire c now =>
          obtain ⟨h1, h2⟩ := step_lookup_other id s (.acquire c now) hat
            (fun v h => by cases h)
          exact ⟨ls, h1.trans hl, fun b hb => absurd hb (h2 b), hlb', hrest⟩
        | request r t1 t2 =>
          obtain ⟨h1, h2⟩ := step_lookup_other id s (.request r t1 t2) hat
            (fun v h => by cases h)
          exact ⟨ls, h1.trans hl, fun b hb => absurd hb (h2 b), hlb', hrest⟩
    obtain ⟨ls', h1, h2, h3, h4⟩ := hstep
    obtain ⟨k1, k2⟩ := ih (step s e).1 ls' h1 hc1 h3 h4
    refine ⟨?_, ?_⟩
    · intro pre post hsplit
      cases pre with
      | nil => exact ⟨ls, hl⟩
      | cons x xs =>
        simp only [List.cons_append, List.cons.injEq] at hsplit
        obtain ⟨rfl, hsplit⟩ := hsplit
        exact k1 xs post hsplit
    · intro o ho b hob
      rcases List.mem_cons.1 ho with ho | ho
      · exact h2 b (ho ▸ hob)
      · exact k2 o ho b hob

theorem base_mono {lim : Limiter} {T T' : Nat} (h : lim.Base T) (hT : T ≤ T') : lim.Base T' :=
  ⟨h.1, h.2.1, h.2.2.1, le_trans h.2.2.2 hT⟩

theorem fullAt_mono {lim : Limiter} {T T' : Nat} (h : lim.FullAt T) (hT : T ≤ T') :
    lim.FullAt T' := by
  unfold Limiter.FullAt at *
  have : ((T - lim.last : Nat) : Int) ≤ ((T' - lim.last : Nat) : Int) := by
    exact_mod_cast Nat.sub_le_sub_right hT _
  linarith

theorem rel_mono {v v' : Option (Nat × Limiter)} {T T' : Nat} (h : Rel v v' T) (hT : T ≤ T') :
    Rel v v' T' := by
  unfold Rel at *
  cases v with
  | none =>
    cases v' with
    | none => trivial
    | some p => exact ⟨base_mono h.1 hT, fullAt_mono h.2 hT⟩
  | some p =>
    cases v' with
    | none => exact h
    | some p' =>
      obtain ⟨h1, h2, h3, h4, h5⟩ := h
      refine ⟨h1, le_trans h2 hT, base_mono h3 hT, h4, ?_⟩
      rcases h5 with h5 | ⟨h5, h6, h7⟩
      · exact Or.inl h5
      · exact Or.inr ⟨base_mono h5 hT, fullAt_mono h6 hT, fullAt_mono h7 hT⟩

theorem NewLimiter_base (T : Nat) : (NewLimiter 5 10).Base T :=
  ⟨rfl, rfl, by simp [NewLimiter, tokenUnit], Nat.zero_le _⟩

theorem NewLimiter_full (T : Nat) : (NewLimiter 5 10).FullAt T := by
  unfold Limiter.FullAt NewLimiter
  simp only
  have : (0 : Int) ≤ ((T - 0 : Nat) : Int) := Int.natCast_nonneg _
  push_cast at *
  linarith

theorem Allow_full {lim : Limiter} {T t : Nat} (hb : lim.Base T) (hf : lim.FullAt T)
    (hT : T ≤ t) :
    lim.Allow t = (true, { limit := 5, burst := 10, tokens := 9 * (tokenUnit : Int), last := t }) := by
  have hf' := fullAt_mono hf hT
  obtain ⟨h5, h10, -, hl⟩ := hb
  have hr : refilled lim t = 10 * (tokenUnit : Int) := by
    unfold refilled
    rw [Nat.min_eq_right (le_trans hl hT)]
    exact min_eq_left hf'
  rw [Allow_eq lim h5 h10, hr, if_pos (by unfold tokenUnit; norm_num)]
  cases lim
  simp only at h5 h10
  subst h5 h10
  simp only [Prod.mk.injEq, Limiter.mk.injEq, true_and, and_true]
  ring

theorem base_full_later {lim : Limiter} {T ls : Nat} (hb : lim.Base T) (hT : T ≤ ls) :
    lim.FullAt (ls + 10 * Minute + 1) := by
  obtain ⟨-, -, htok, hl⟩ := hb
  unfold Limiter.FullAt
  simp only [Minute, Second, tokenUnit] at *
  omega

theorem Allow_base {lim : Limiter} {T t1 t2 : Nat} (hb : lim.Base T) (hT : T ≤ t1)
    (h12 : t1 ≤ t2) (hlag : t2 + tokenTime ≤ t1 + 10 * Minute) :
    (lim.Allow t2).2.Base t2 ∧ (lim.Allow t2).2.FullAt (t1 + 10 * Minute + 1) := by
  have hlater := base_full_later hb hT
  obtain ⟨h5, h10, htok, hl⟩ := hb
  rw [Allow_eq lim h5 h10]
  by_cases hx : (tokenUnit : Int) - 4 ≤ refilled lim t2
  · rw [if_pos hx]
    refine ⟨⟨h5, h10, by simp only; linarith, le_refl _⟩, ?_⟩
    show 10 * (tokenUnit : Int)
      ≤ (refilled lim t2 - tokenUnit) + 5 * ((t1 + 10 * Minute + 1 - t2 : Nat) : Int)
    have hr : refilled lim t2
        = min (10 * (tokenUnit : Int)) (lim.tokens + 5 * ((t2 - lim.last : Nat) : Int)) := by
      unfold refilled
      rw [Nat.min_eq_right (by omega)]
    rw [hr]
    simp only [tokenTime, Minute, Second, tokenUnit] at *
    omega
  · rw [if_neg hx]
    refine ⟨⟨h5, h10, htok, ?_⟩, hlater⟩
    show lim.last ≤ t2
    omega

theorem rel_limiters {v v' : Option (Nat × Limiter)} {T : Nat} (h : Rel v v' T) :
    (viewLimiter v').Base T ∧
    (viewLimiter v = viewLimiter v' ∨
      ((viewLimiter v).Base T ∧ (viewLimiter v).FullAt T ∧ (viewLimiter v').FullAt T)) := by
  unfold Rel at h
  cases v with
  | none =>
    cases v' with
    | none => exact ⟨NewLimiter_base T, Or.inl rfl⟩
    | some p' =>
      exact ⟨h.1, Or.inr ⟨NewLimiter_base T, NewLimiter_full T, h.2⟩⟩
  | some p =>
    cases v' with
    | none => exact absurd h id
    | some p' => exact ⟨h.2.2.1, h.2.2.2.2⟩

theorem rel_allow {v v' : Option (Nat × Limiter)} {T t : Nat} (h : Rel v v' T) (hT : T ≤ t) :
    (viewLimiter v).Allow t = (viewLimiter v').Allow t := by
  rcases (rel_limiters h).2 with h | ⟨h1, h2, h3⟩
  · rw [h]
  · rw [Allow_full h1 h2 hT, Allow_full (rel_limiters h).1 h3 hT]

theorem rel_request {v v' : Option (Nat × Limiter)} {T t1 t2 : Nat} (h : Rel v v' T)
    (hT : T ≤ t1) (h12 : t1 ≤ t2) (hlag : t2 + tokenTime ≤ t1 + 10 * Minute) :
    Rel (some (t1, ((viewLimiter v).Allow t2).2)) (some (t1, ((viewLimiter v').Allow t2).2))
      t2 := by
  rw [rel_allow h (le_trans hT h12)]
  obtain ⟨hb, hp⟩ := Allow_base (rel_limiters h).1 hT h12 hlag
  exact ⟨rfl, h12, hb, hp, Or.inl rfl⟩

theorem rel_acquire {v v' : Option (Nat × Limiter)} {T now : Nat} (h : Rel v v' T)
    (hT : T ≤ now) :
    Rel (some (now, viewLimiter v)) (some (now, viewLimiter v')) now := by
  obtain ⟨hb, hl⟩ := rel_limiters h
  refine ⟨rfl, le_refl _, base_mono hb hT, base_full_later hb hT, ?_⟩
  · rcases hl with hl | ⟨h1, h2, h3⟩
    · exact Or.inl hl
    · exact Or.inr ⟨base_mono h1 hT, fullAt_mono h2 hT, fullAt_mono h3 hT⟩

theorem rel_visit {v v' : Option (Nat × Limiter)} {T : Nat} (now : Nat) (h : Rel v v' T) :
    Rel (viewVisit now v) v' (max T now) := by
  have hT : T ≤ max T now := le_max_left _ _
  cases v with
  | none => exact rel_mono h hT
  | some p =>
    obtain ⟨ls, lim⟩ := p
    cases v' with
    | none => exact absurd h id
    | some p' =>
      obtain ⟨ls', lim'⟩ := p'
      by_cases hst : now - ls > 10 * Minute
      · have hv : viewVisit now (some (ls, lim)) = none := by simp [viewVisit, hst]
        rw [hv]
        obtain ⟨h1, h2, h3, h4, -⟩ := h
        refine ⟨base_mono h3 hT, ?_⟩
        subst h1
        exact fullAt_mono h4 (le_trans (by omega) (le_max_right T now))
      · have hv : viewVisit now (some (ls, lim)) = some (ls, lim) := by simp [viewVisit, hst]
        rw [hv]
        exact rel_mono h hT

theorem rel_sweep (id : String) (visits : List (String × Nat)) {v v' : Option (Nat × Limiter)}
    {T : Nat} (h : Rel v v' T) :
    Rel (viewStep id v (.sweep visits)) v' (finish T (.sweep visits)) := by
  unfold viewStep finish
  induction visits generalizing v T with
  | nil => exact h
  | cons x xs ih =>
    simp only [List.foldl_cons]
    apply ih
    by_cases hx : x.1 = id
    · rw [if_pos hx]; exact rel_visit x.2 h
    · rw [if_neg hx]; exact rel_mono h (le_max_left _ _)

theorem chronological_head {e : Event} {es : List Event} (h : Chronological (e :: es)) :
    e.times.Pairwise (fun a b => a ≤ b) := by
  unfold Chronological at h
  rw [List.map_cons, List.flatten_cons, List.pairwise_append] at h
  exact h.1

theorem le_finish (T : Nat) (e : Event) : T ≤ finish T e := by
  cases e with
  | acquire c now => exact le_max_left _ _
  | request r t1 t2 => exact le_max_left _ _
  | sweep visits =>
    unfold finish
    induction visits generalizing T with
    | nil => exact le_refl _
    | cons x xs ih => exact le_trans (le_max_left _ _) (ih (max T x.2))

theorem finish_le (T : Nat) (e : Event) (t : Nat) (hT : T ≤ t) (he : ∀ x ∈ e.times, x ≤ t) :
    finish T e ≤ t := by
  cases e with
  | acquire c now =>
    exact max_le hT (he now (by simp [Event.times]))
  | request r t1 t2 =>
    exact max_le hT (max_le (he t1 (by simp [Event.times])) (he t2 (by simp [Event.times])))
  | sweep visits =>
    unfold finish
    induction visits generalizing T with
    | nil => exact hT
    | cons x xs ih =>
      apply ih
      · exact max_le hT (he x.2 (by simp [Event.times]))
      · intro y hy
        apply he
        simp only [Event.times, List.map_cons, List.mem_cons] at hy ⊢
        exact Or.inr hy

theorem eviction_simulation (evs : List Event) (s s' : State) (T : Nat)
    (hs : s.WF) (hs' : s'.WF) (hrel : ∀ id, Rel (view s id) (view s' id) T)
    (hchrono : Chronological evs) (hT : ∀ e ∈ evs, ∀ t ∈ e.times, T ≤ t)
    (hlag : ∀ r t1 t2, Event.request r t1 t2 ∈ evs → t2 + tokenTime ≤ t1 + 10 * Minute) :
    decisions (outputs s evs)
      = decisions (outputs s' (evs.filter fun e => !isSweep e)) := by
  induction evs generalizing s s' T with
  | nil => rfl
  | cons e es ih =>
    obtain ⟨hc1, hc2⟩ := chronological_cons hchrono
    have hhead := chronological_head hchrono
    have hT' : ∀ e' ∈ es, ∀ t ∈ e'.times, finish T e ≤ t := by
      intro e' he' t ht
      exact finish_le T e t (hT e' (List.mem_cons_of_mem _ he') t ht)
        (fun x hx => hc2 x hx e' he' t ht)
    have hlag' : ∀ r t1 t2, Event.request r t1 t2 ∈ es →
        t2 + tokenTime ≤ t1 + 10 * Minute :=
      fun r t1 t2 h => hlag r t1 t2 (List.mem_cons_of_mem _ h)
    obtain ⟨h1, h2⟩ := step_view hs e
    cases e with
    | sweep visits =>
      rw [List.filter_cons_of_neg (by simp [isSweep])]
      show decisions (Output.swept :: outputs (step s (.sweep visits)).1 es) = _
      have hd : ∀ os, decisions (Output.swept :: os) = decisions os := fun _ => rfl
      rw [hd]
      apply ih _ _ (finish T (.sweep visits)) h1 hs' _ hc1 hT' hlag'
      intro id
      rw [h2 id]
      exact rel_sweep id visits (hrel id)
    | acquire c now =>
      rw [List.filter_cons_of_pos (by simp [isSweep])]
      obtain ⟨k1, k2⟩ := step_view hs' (.acquire c now)
      have hnow : T ≤ now := hT _ (List.mem_cons_self _ _) now (by simp [Event.times])
      have hfin : finish T (.acquire c now) = now := max_eq_right hnow
      show decisions ((step s (.acquire c now)).2 :: outputs (step s (.acquire c now)).1 es)
        = decisions ((step s' (.acquire c now)).2 :: outputs (step s' (.acquire c now)).1 _)
      have hd : ∀ (st : State) os, decisions ((step st (.acquire c now)).2 :: os)
          = decisions os := fun _ _ => rfl
      rw [hd, hd]
      apply ih _ _ (finish T (.acquire c now)) h1 k1 _ hc1 hT' hlag'
      intro id
      rw [h2 id, k2 id, hfin]
      by_cases hid : c = id
      · simp only [viewStep, hid, if_true]
        exact rel_acquire (hrel id) hnow
      · simp only [viewStep, hid, if_false]
        exact rel_mono (hrel id) hnow
    | request r t1 t2 =>
      rw [List.filter_cons_of_pos (by simp [isSweep])]
      obtain ⟨k1, k2⟩ := step_view hs' (.request r t1 t2)
      have ht1 : T ≤ t1 := hT _ (List.mem_cons_self _ _) t1 (by simp [Event.times])
      have h12 : t1 ≤ t2 := by
        simp only [Event.times, List.pairwise_cons, List.mem_singleton, forall_eq] at hhead
        exact hhead.1
      have hl := hlag r t1 t2 (List.mem_cons_self _ _)
      have hfin : finish T (.request r t1 t2) = t2 := by
        show max T (max t1 t2) = t2
        rw [max_eq_right h12, max_eq_right (le_trans ht1 h12)]
      show decisions ((step s (.request r t1 t2)).2 :: outputs (step s (.request r t1 t2)).1 es)
        = decisions ((step s' (.request r t1 t2)).2
            :: outputs (step s' (.request r t1 t2)).1 _)
      rw [step_request hs, step_request hs', rel_allow (hrel _) (le_trans ht1 h12)]
      have hd : ∀ c b os, decisions (Output.decision c b :: os) = b :: decisions os :=
        fun _ _ _ => rfl
      rw [hd, hd]
      congr 1
      apply ih _ _ (finish T (.request r t1 t2)) h1 k1 _ hc1 hT' hlag'
      intro id
      rw [h2 id, k2 id, hfin]
      by_cases hid : getClientIP r = id
      · simp only [viewStep, hid, if_true]
        exact rel_request (hrel id) ht1 h12 hl
      · simp only [viewStep, hid, if_false]
        exact rel_mono (hrel id) (le_trans ht1 h12)

theorem per_identity_isolation_witness :
    "203.0.113.7" ≠ "198.51.100.9" ∧ State.init.WF ∧
    decisionsFor "198.51.100.9" (outputs State.init twoClients)
      = decisionsFor "198.51.100.9"
          (outputs State.init (twoClients.filter fun e => !isRequestFrom "203.0.113.7" e)) ∧
    decisionsFor "198.51.100.9" (outputs State.init twoClients) = [true] ∧
    decisionsFor "203.0.113.7" (outputs State.init twoClients)
      = List.replicate 10 true ++ [false] :=
  ⟨by decide, init_wellFormed,
    per_identity_isolation "203.0.113.7" "198.51.100.9" (by decide) State.init init_wellFormed
      twoClients,
    by decide, by decide⟩

theorem lazy_creation_idempotent_witness :
    oneClient.ipLimiters.lookup "198.51.100.9" = none ∧
    (exec oneClient [.acquire "198.51.100.9" 1, .request forwardedRequest 2 2,
      .acquire "198.51.100.9" 3]).heap.length = oneClient.heap.length + 1 ∧
    outputs oneClient [.acquire "198.51.100.9" 1, .request forwardedRequest 2 2,
      .acquire "198.51.100.9" 3]
      = [.handle "198.51.100.9" 1, .decision "198.51.100.9" true, .handle "198.51.100.9" 1] :=
  ⟨by decide,
    (lazy_creation_idempotent oneClient "198.51.100.9"
      [.acquire "198.51.100.9" 1, .request forwardedRequest 2 2, .acquire "198.51.100.9" 3]
      (by decide) (by decide) (by decide)).2.2.1,
    by decide⟩

end Gateway
